import Mathlib

/-!
# Verification of the municipal-officials scraping platform

Shallow embedding of the core pure logic of the scraping platform:

* `clean_politician_data.py`       — offline batch name filter
* `src/utils/name_matching.py`     — name normalization and tiered matching
* `src/scrapers/smart_municipal.py` and `src/scrapers/enhanced_municipal.py`
  — page classification and record extraction
* `src/core/http_client.py`        — per-domain rate limiting

Strings are modelled as `List Char` (Python `str` is a sequence of code
points, as is `String.data`).  Python regular-expression searches used by the
code are embedded as explicit scanning functions specialised to the concrete
patterns appearing in the source; each is annotated with the pattern it
embeds.  Fractional similarity scores are modelled as `ℚ`.
-/

namespace Scrape

/-- Python `str.isspace` / regex `\s` class, restricted to the whitespace
characters that can occur in the data handled here (ASCII whitespace,
NBSP and the ideographic space U+3000). -/
def pySpace (c : Char) : Bool :=
  c = ' ' || c = '\t' || c = '\n' || c = '\r' || c = '\x0b' || c = '\x0c' ||
  c = ' ' || c = '　'

/-- Python regex `\d` (Unicode decimal digit); the model covers ASCII and
fullwidth digits, the only decimal-digit scripts in the data handled here. -/
def pyDigit (c : Char) : Bool :=
  (0x30 ≤ c.toNat && c.toNat ≤ 0x39) || (0xff10 ≤ c.toNat && c.toNat ≤ 0xff19)

/-- CJK unified ideograph range `[一-鿿]` (U+4E00–U+9FFF) as used by the
regexes in the source. -/
def kanjiChar (c : Char) : Bool :=
  0x4e00 ≤ c.toNat && c.toNat ≤ 0x9fff

/-- Hiragana block `[぀-ゟ]` (U+3040–U+309F, the full regex range). -/
def hiraBlock (c : Char) : Bool :=
  0x3040 ≤ c.toNat && c.toNat ≤ 0x309f

/-- Katakana block `[゠-ヿ]` (U+30A0–U+30FF, the full regex range). -/
def kataBlock (c : Char) : Bool :=
  0x30a0 ≤ c.toNat && c.toNat ≤ 0x30ff

/-- The class `[一-鿿぀-ゟ゠-ヿ]` used by
`clean_politician_data.is_valid_politician_name` to require a Japanese
character. -/
def japaneseChar (c : Char) : Bool :=
  kanjiChar c || hiraBlock c || kataBlock c

/-- The class `[一-鿿぀-ゟ゠-ヿ\s　]` of the final
full-match check in `is_valid_politician_name`. -/
def nameChar (c : Char) : Bool :=
  japaneseChar c || pySpace c || c = '　'

/-- Python `str.strip()`: remove whitespace from both ends. -/
def pyStrip (s : List Char) : List Char :=
  ((s.dropWhile pySpace).reverse.dropWhile pySpace).reverse

/-- Boolean test that `pat` is a prefix of `s`. -/
def startsList : List Char → List Char → Bool
  | [], _ => true
  | _ :: _, [] => false
  | a :: as, b :: bs => a = b && startsList as bs

/-- Boolean substring test, Python `pat in s`. -/
def infixOf (pat : List Char) : List Char → Bool
  | [] => startsList pat []
  | c :: rest => startsList pat (c :: rest) || infixOf pat rest

/-- The exclusion vocabulary of `is_valid_politician_name`
(`clean_politician_data.py`, lines 30–73), in source order. -/
def excludeKeywords : List String :=
  [ "氏名", "写真", "性別", "党派", "新旧", "年齢", "得票",
    "主な肩書", "肩書", "所属", "当落", "結果",
    "執行理由", "任期満了", "関連情報", "選挙情報",
    "投票日", "告示日", "投票率", "有権者", "開票",
    "件", "/", "ページ", "一覧", "結果", "速報",
    "都道府県", "市区町村", "北海道", "青森県", "岩手県",
    "宮城県", "秋田県", "山形県", "福島県", "茨城県",
    "栃木県", "群馬県", "埼玉県", "千葉県", "東京都",
    "神奈川県", "新潟県", "富山県", "石川県", "福井県",
    "選挙", "市長選", "知事選", "議員選", "町長選", "村長選",
    "詳細", "情報", "公報", "データ", "記事", "特集",
    "会社員", "無職", "経営", "代表", "職員", "元職",
    "前職", "新人", "現職", "会社役員", "団体職員",
    "会社取締役", "取締役", "公衆浴場業", "浴場業",
    "教室主宰", "音楽教室", "塾経営", "店主",
    "自営業", "農業", "漁業", "林業", "商店主",
    "会社経営", "商店経営", "飲食店", "不動産",
    "建設業", "製造業", "運送業", "販売業",
    "理容", "美容", "整骨", "接骨", "鍼灸",
    "税理士", "行政書士", "司法書士", "弁護士",
    "医師", "歯科医", "薬剤師", "看護師",
    "教員", "講師", "塾長", "校長", "園長",
    "僧侶", "住職", "宮司", "神主",
    "農協", "漁協", "商工会", "観光協会",
    "主宰", "経営者", "代表者", "理事", "会長", "副会長",
    "顧問", "相談役", "社長", "専務", "常務",
    "NPO", "法人", "協会", "組合", "連合会" ]

/-- `re.search(r'\d{4}年', name)`: four decimal digits immediately followed
by `年` somewhere in the string. -/
def hasFourDigitsYear : List Char → Bool
  | a :: b :: c :: d :: e :: rest =>
    (pyDigit a && pyDigit b && pyDigit c && pyDigit d && e = '年') ||
      hasFourDigitsYear (b :: c :: d :: e :: rest)
  | _ => false

/-- `re.search(r'\d+月', name)` (or `\d+日`): a digit immediately followed by
the marker character somewhere in the string (equivalent to the existence of
a match of `\d+` + marker). -/
def hasDigitThen (mark : Char) : List Char → Bool
  | c :: m :: rest => (pyDigit c && m = mark) || hasDigitThen mark (m :: rest)
  | _ => false

/-- The date check `re.search(r'\d{4}年|\d+月|\d+日', name)`. -/
def dateLike (s : List Char) : Bool :=
  hasFourDigitsYear s || hasDigitThen '月' s || hasDigitThen '日' s

/-- Python `name.count(ch)` for a single character. -/
def countChar (ch : Char) (s : List Char) : Nat :=
  s.countP (· = ch)

/-- The bracket/symbol screen of `is_valid_politician_name`
(lines 88–91): if any of the listed symbols occurs, reject when `（` or `）`
occurs more than once. -/
def symbolReject (s : List Char) : Bool :=
  (["（", "）", "【", "】", "/", "・・", "…"].any
      (fun t => infixOf t.data s)) &&
    (countChar '（' s > 1 || countChar '）' s > 1)

/-- The body of `is_valid_politician_name` after
`name = str(name).strip()` (clean_politician_data.py, lines 21–98). -/
def isValidStripped (name : List Char) : Bool :=
  if name.length < 2 || name.length > 10 then false
  else if !(name.any japaneseChar) then false
  else if excludeKeywords.any (fun kw => infixOf kw.data name) then false
  else if dateLike name then false
  else if name.countP pyDigit > 3 then false
  else if symbolReject name then false
  else if !name.isEmpty && name.all nameChar then true
  else false

/-- `clean_politician_data.is_valid_politician_name` (lines 10–98): falsy
input is rejected, then the stripped name is screened.  Total on all
strings (the Python function can only raise on non-string input, which
`str()` coercion prevents). -/
def isValidPoliticianName (raw : List Char) : Bool :=
  if raw.isEmpty then false
  else isValidStripped (pyStrip raw)

/-- `re.search(r'[一-鿿]{2,6}', text)`: existence of a match is
existence of two adjacent kanji. -/
def hasKanjiPair : List Char → Bool
  | a :: b :: rest => (kanjiChar a && kanjiChar b) || hasKanjiPair (b :: rest)
  | _ => false

/-- `SmartMunicipalScraper._looks_like_name` (smart_municipal.py, 392–402):
length between 2 and 20 and a kanji run of length ≥ 2. -/
def looksLikeName (text : List Char) : Bool :=
  if text.length < 2 || text.length > 20 then false
  else hasKanjiPair text

/-- Exclusion list of `EnhancedMunicipalScraper._is_likely_name`
(enhanced_municipal.py, lines 429–435). -/
def enhancedExcludedWords : List String :=
  [ "議員", "市議", "区議", "町議", "村議", "県議", "都議", "府議", "道議",
    "議長", "副議長", "委員長", "委員", "会長", "副会長",
    "住民", "登録", "相談", "窓口", "受付", "案内", "情報", "一覧", "名簿",
    "上下水道", "浄化槽", "除雪", "道路", "河川", "動物", "ペット",
    "墓地", "墓園", "消費", "生活", "くらし", "住まい", "土地" ]

/-- `EnhancedMunicipalScraper._is_likely_name` (enhanced_municipal.py,
426–445): no excluded word as a substring and length between 2 and 8. -/
def isLikelyName (text : List Char) : Bool :=
  if enhancedExcludedWords.any (fun w => infixOf w.data text) then false
  else if text.length < 2 || text.length > 8 then false
  else true

/-! ## Name normalization and tiered matching (`src/utils/name_matching.py`) -/

/-- Python `str.lower()` on the character repertoire handled here
(ASCII and fullwidth Latin letters; other characters in the data
are caseless). -/
def pyLower (c : Char) : Char :=
  if 0x41 ≤ c.toNat && c.toNat ≤ 0x5a then Char.ofNat (c.toNat + 32)
  else if 0xff21 ≤ c.toNat && c.toNat ≤ 0xff3a then Char.ofNat (c.toNat + 32)
  else c

/-- Python regex `\w` (word character) on the character repertoire handled
here: ASCII alphanumerics and underscore, CJK ideographs and the iteration
marks `々〆〇`, hiragana and katakana letters (excluding the punctuation,
combining marks and middle dot of those blocks, which are not
alphanumeric), and fullwidth alphanumerics. -/
def wordChar (c : Char) : Bool :=
  (0x61 ≤ c.toNat && c.toNat ≤ 0x7a) || (0x41 ≤ c.toNat && c.toNat ≤ 0x5a) ||
  (0x30 ≤ c.toNat && c.toNat ≤ 0x39) || c.toNat = 0x5f || kanjiChar c ||
  (0x3041 ≤ c.toNat && c.toNat ≤ 0x3096) || (0x309d ≤ c.toNat && c.toNat ≤ 0x309f) ||
  (0x30a1 ≤ c.toNat && c.toNat ≤ 0x30fa) || (0x30fc ≤ c.toNat && c.toNat ≤ 0x30ff) ||
  c.toNat = 0x3005 || c.toNat = 0x3006 || c.toNat = 0x3007 ||
  (0xff10 ≤ c.toNat && c.toNat ≤ 0xff19) || (0xff21 ≤ c.toNat && c.toNat ≤ 0xff3a) ||
  (0xff41 ≤ c.toNat && c.toNat ≤ 0xff5a)

/-- `unicodedata.normalize('NFKC', ·)`, modelled character-wise on the
repertoire this code manipulates: fullwidth ASCII variants fold to their
halfwidth forms, the ideographic space folds to a space, everything else
(ASCII, kana, ideographs) is NFKC-stable.  (Full NFKC is not character-wise;
the composing sequences it affects cannot reach this point because the
preceding `[^\w\s]` substitution removes combining marks.) -/
def nfkcChar (c : Char) : List Char :=
  if c.toNat = 0x3000 then [' ']
  else if 0xff01 ≤ c.toNat && c.toNat ≤ 0xff5e then [Char.ofNat (c.toNat - 0xfee0)]
  else [c]

/-- Is an optional character a word character (`none` = outside the
string, which regex `\b` treats as non-word)? -/
def isWordOpt : Option Char → Bool
  | some c => wordChar c
  | none => false

/-- One pass of `re.sub(rf'\b{re.escape(suffix)}\b', '', name)`:
delete every non-overlapping, left-to-right occurrence of the literal
`pat` that has a word boundary on both sides.  `prev` is the character of
the original string immediately before the scan position (boundaries are
evaluated on the original string).  The `IGNORECASE` flag of the source is
a no-op here because `normalize_name` lowercases first. -/
def subBoundaryAux (pat : List Char) :
    Nat → Option Char → List Char → List Char
  | 0, _, s => s
  | _ + 1, _, [] => []
  | fuel + 1, prev, c :: rest =>
    if !pat.isEmpty && startsList pat (c :: rest) &&
        (isWordOpt prev != isWordOpt (some c)) &&
        (isWordOpt pat.getLast? != isWordOpt ((c :: rest).drop pat.length).head?)
    then
      subBoundaryAux pat fuel pat.getLast? ((c :: rest).drop pat.length)
    else
      c :: subBoundaryAux pat fuel prev rest

/-- `re.sub(rf'\b{re.escape(suffix)}\b', '', name)` from the start of the
string (no preceding character).  The fuel argument only forces structural
recursion; each scanning step consumes at least one character, so
`s.length` is enough fuel. -/
def subBoundary (pat s : List Char) : List Char :=
  subBoundaryAux pat s.length none s

/-- `suffixes_to_remove` of `normalize_name` (name_matching.py, 33–37),
in source order. -/
def suffixesToRemove : List String :=
  [ "inc.", "inc", "ltd.", "ltd", "llc", "corp", "corporation",
    "株式会社", "有限会社", "合同会社", "氏", "様", "先生", "議員",
    "co.", "company", "group", "holdings" ]

/-- Python `str.split()` (split on whitespace runs, dropping empty
pieces); `acc` accumulates the current word reversed. -/
def splitWsAux : List Char → List Char → List (List Char)
  | [], acc => if acc.isEmpty then [] else [acc.reverse]
  | c :: rest, acc =>
    if pySpace c then
      if acc.isEmpty then splitWsAux rest []
      else acc.reverse :: splitWsAux rest []
    else splitWsAux rest (c :: acc)

/-- Python `str.split()`. -/
def splitWs (s : List Char) : List (List Char) :=
  splitWsAux s []

/-- Python `' '.join(ws)`. -/
def joinWs : List (List Char) → List Char
  | [] => []
  | [w] => w
  | w :: w2 :: ws => w ++ ' ' :: joinWs (w2 :: ws)

/-- `normalize_name` (name_matching.py, 16–51): lowercase, remove the
suffix vocabulary at word boundaries, delete `[^\w\s]`, NFKC-normalize,
collapse whitespace with `' '.join(name.split())`, and strip. -/
def normalizeName (s : List Char) : List Char :=
  if s.isEmpty then []
  else
    let s1 := s.map pyLower
    let s2 := suffixesToRemove.foldl (fun acc pat => subBoundary pat.data acc) s1
    let s3 := s2.filter (fun c => wordChar c || pySpace c)
    let s4 := s3.flatMap nfkcChar
    pyStrip (joinWs (splitWs s4))

/-- Length of a longest common subsequence; `rapidfuzz`'s Indel distance of
`x` and `y` is `x.length + y.length - 2 * lcsLen x y`. -/
def lcsLenAux : Nat → List Char → List Char → Nat
  | 0, _, _ => 0
  | _ + 1, [], _ => 0
  | _ + 1, _, [] => 0
  | fuel + 1, a :: as, b :: bs =>
    if a = b then lcsLenAux fuel as bs + 1
    else max (lcsLenAux fuel (a :: as) bs) (lcsLenAux fuel as (b :: bs))

/-- Length of a longest common subsequence (fuel forces structural
recursion; every step shrinks the combined length by at least one). -/
def lcsLen (x y : List Char) : Nat :=
  lcsLenAux (x.length + y.length) x y

/-- `rapidfuzz.fuzz.ratio`: normalized Indel similarity scaled to 0–100,
with two empty strings scoring 100.  The division is written with `mkRat`
(the quotient of the integer numerator by the positive denominator), which
equals `(100 * 2 * lcs) / (|x| + |y|)` in `ℚ` — see `indelSim_eq_div` —
but also computes inside the kernel. -/
def indelSim (x y : List Char) : ℚ :=
  if x.length + y.length = 0 then 100
  else mkRat (100 * (2 * (lcsLen x y : ℤ))) (x.length + y.length)

/-- `q / 100`, written with `mkRat` so that it computes inside the kernel
(see `ratDiv100_eq`). -/
def ratDiv100 (q : ℚ) : ℚ :=
  mkRat q.num (q.den * 100)

/-- `q * 100`, written with `mkRat` so that it computes inside the kernel
(see `ratMul100_eq`). -/
def ratMul100 (q : ℚ) : ℚ :=
  mkRat (q.num * 100) q.den

/-- Lexicographic (code-point) comparison of strings, Python `<=` on `str`
as used by `sorted`. -/
def listLe : List Char → List Char → Bool
  | [], _ => true
  | _ :: _, [] => false
  | a :: as, b :: bs =>
    if a < b then true else if b < a then false else listLe as bs

/-- Stable insertion of `x` into a sorted list (before the first element
it compares `le` to). -/
def insertSorted (le : α → α → Bool) (x : α) : List α → List α
  | [] => [x]
  | y :: ys => if le x y then x :: y :: ys else y :: insertSorted le x ys

/-- Stable insertion sort. -/
def insSort (le : α → α → Bool) : List α → List α
  | [] => []
  | x :: xs => insertSorted le x (insSort le xs)

/-- `rapidfuzz.fuzz.token_sort_ratio`'s token-sorted form:
`' '.join(sorted(s.split()))`. -/
def tokenSortKey (s : List Char) : List Char :=
  joinWs (insSort listLe (splitWs s))

/-- `rapidfuzz.fuzz.token_sort_ratio`. -/
def tokenSortScore (q c : List Char) : ℚ :=
  indelSim (tokenSortKey q) (tokenSortKey c)

/-- `rapidfuzz.process.extract(query, candidates,
scorer=fuzz.token_sort_ratio, limit=limit)`: all candidates scored, sorted
by descending score (stable), truncated to `limit`. -/
def processExtract (query : List Char) (cands : List (List Char))
    (limit : Nat) : List (List Char × ℚ) :=
  (insSort (fun p q => decide (q.2 ≤ p.2))
    (cands.map (fun c => (c, tokenSortScore query c)))).take limit

/-- `fuzzy_match` (name_matching.py, 54–101) in the environment where
`rapidfuzz` is installed: extract, then filter by `score >= threshold`. -/
def fuzzyMatch (threshold : ℚ) (limit : Nat) (query : List Char)
    (cands : List (List Char)) : List (List Char × ℚ) :=
  (processExtract query cands limit).filter (fun p => decide (threshold ≤ p.2))

/-- `semantic_match` (name_matching.py, 133–184) in the environment where
`sentence-transformers` is NOT installed: the `ImportError` branch falls
back to `fuzzy_match` at threshold `threshold * 100` and rescales the
scores to 0–1. -/
def semanticMatchUnavailable (threshold : ℚ) (limit : Nat) (query : List Char)
    (cands : List (List Char)) : List (List Char × ℚ) :=
  (fuzzyMatch (ratMul100 threshold) limit query cands).map
    (fun p => (p.1, ratDiv100 p.2))

/-- Insert `n` under `key` into the insertion-ordered dictionary modelling
`create_name_index`'s `dict` (append to the existing entry, else add a new
key at the end). -/
def indexInsert (key n : List Char) :
    List (List Char × List (List Char)) → List (List Char × List (List Char))
  | [] => [(key, [n])]
  | (k, v) :: rest =>
    if k = key then (k, v ++ [n]) :: rest
    else (k, v) :: indexInsert key n rest

/-- `create_name_index` (name_matching.py, 187–205): map each normalized
name to the list of original names bearing it, in insertion order. -/
def createNameIndex (names : List (List Char)) :
    List (List Char × List (List Char)) :=
  names.foldl (fun idx n => indexInsert (normalizeName n) n idx) []

/-- `index.get(key, [])`: value of the first (unique) entry with this
key. -/
def indexGet : List (List Char × List (List Char)) → List Char →
    List (List Char)
  | [], _ => []
  | (k, v) :: rest, key => if k = key then v else indexGet rest key

/-- `find_exact_match` (name_matching.py, 208–225): first original name
whose normalized form equals the query's. -/
def findExactMatch (query : List Char)
    (idx : List (List Char × List (List Char))) : Option (List Char) :=
  (indexGet idx (normalizeName query)).head?

/-- Tiers 2 and 3 of `match_with_fallback` (fuzzy, then optional
semantic). -/
def fuzzySemanticTiers (useSemantic : Bool) (fuzzyThreshold semanticThreshold : ℚ)
    (query : List Char) (cands : List (List Char)) :
    Option (List Char × ℚ × String) :=
  match fuzzyMatch fuzzyThreshold 1 query cands with
  | (m, s) :: _ => some (m, s, "fuzzy")
  | [] =>
    if useSemantic then
      match semanticMatchUnavailable semanticThreshold 1 query cands with
      | (m, sim) :: _ => some (m, ratMul100 sim, "semantic")
      | [] => none
    else none

/-- `match_with_fallback` (name_matching.py, 228–274), in the environment
where `rapidfuzz` is installed and `sentence-transformers` is not.
Python's `if exact_match:` is falsy both for `None` and for the empty
string, hence the `m.isEmpty` branch. -/
def matchWithFallback (useSemantic : Bool)
    (fuzzyThreshold semanticThreshold : ℚ) (query : List Char)
    (cands : List (List Char)) : Option (List Char × ℚ × String) :=
  match findExactMatch query (createNameIndex cands) with
  | some m =>
    if m.isEmpty then
      fuzzySemanticTiers useSemantic fuzzyThreshold semanticThreshold query cands
    else some (m, 100, "exact")
  | none =>
    fuzzySemanticTiers useSemantic fuzzyThreshold semanticThreshold query cands

/-! ## Document model

A parsed page, as far as the two municipal scrapers inspect it: the page
text (`soup.get_text()`), the tables with their row/cell texts and overall
text, the `ul`/`ol` lists with their `li` texts, and the `div`/`article`
blocks with tag, class attribute values and text.  Anchor/href structure
inside elements is not modelled: it only feeds the social-media/website
extraction, which no claim concerns. -/

structure HtmlTable where
  rows : List (List (List Char))
  text : List Char
  deriving DecidableEq

structure HtmlList where
  items : List (List Char)
  deriving DecidableEq

structure HtmlBlock where
  tag : List Char
  classes : List (List Char)
  text : List Char
  deriving DecidableEq

structure Page where
  text : List Char
  tables : List HtmlTable
  lists : List HtmlList
  divs : List HtmlBlock
  deriving DecidableEq

/-- An extracted official record.  The fields `official_id`,
`municipality`, `prefecture`, `source_url` and `last_updated` of the
source dictionaries are omitted: they are constant per call (derived from
the call arguments and the clock, not from the page) and no claim
concerns them; likewise the link-derived social-media/website fields. -/
structure Official where
  name : List Char
  extractionMethod : String
  party : Option (List Char) := none
  faction : Option (List Char) := none
  age : Option Nat := none
  electionCount : Option Nat := none
  region : Option (List Char) := none
  deriving DecidableEq

/-! ## Shared regex helpers for the scrapers -/

/-- Length of the leading run of characters satisfying `f`. -/
def runLen (f : Char → Bool) (s : List Char) : Nat :=
  (s.takeWhile f).length

/-- Greedy-with-backtracking match, at the start of `s`, of the pattern
`[kanji]{aMin,aMax}\s*[kanji]{1,bMax}` (the shape of the kanji name
patterns in both scrapers); returns the matched length.  The first kanji
block is tried greedily from `aMax` down to `aMin`; `\s*` then takes the
maximal whitespace run (whitespace and kanji are disjoint, so shorter
choices cannot help); the final block takes up to `bMax` kanji and must
take at least one. -/
def kanjiSeqMatchLen (aMin aMax bMax : Nat) (s : List Char) : Option Nat :=
  let r := runLen kanjiChar s
  ((List.range (aMax + 1)).reverse.filterMap (fun a =>
    if aMin ≤ a && a ≤ r then
      let t := s.drop a
      let w := runLen pySpace t
      let b := min bMax (runLen kanjiChar (t.drop w))
      if 1 ≤ b then some (a + w + b) else none
    else none)).head?

/-- `re.search`: try a start-anchored matcher at every position, leftmost
first. -/
def searchFor {α : Type} (m : List Char → Option α) : List Char → Option α
  | [] => m []
  | c :: rest =>
    match m (c :: rest) with
    | some v => some v
    | none => searchFor m rest

/-- `re.search` returning the matched text (`match.group(0)`), given a
start-anchored matcher that returns the match length. -/
def searchMatch (m : List Char → Option Nat) (s : List Char) :
    Option (List Char) :=
  searchFor (fun suf => (m suf).map (fun n => suf.take n)) s

/-- Adjacent pair of characters of a class: existence of a match of
`[class]{2,}` (or `{2,k}`). -/
def hasPairOf (f : Char → Bool) : List Char → Bool
  | a :: b :: rest => (f a && f b) || hasPairOf f (b :: rest)
  | _ => false

/-- The narrow hiragana range `[ぁ-ん]` (U+3041–U+3093) of
`SmartMunicipalScraper.OFFICIAL_NAME_PATTERNS`. -/
def hiraNarrow (c : Char) : Bool :=
  0x3041 ≤ c.toNat && c.toNat ≤ 0x3093

/-- The narrow katakana range `[ァ-ヴ]` (U+30A1–U+30F4) of
`SmartMunicipalScraper.OFFICIAL_NAME_PATTERNS`. -/
def kataNarrow (c : Char) : Bool :=
  0x30a1 ≤ c.toNat && c.toNat ≤ 0x30f4

/-- Numeric value of a (ASCII or fullwidth) digit, as `int()` reads it. -/
def digitVal (c : Char) : Nat :=
  if 0x30 ≤ c.toNat && c.toNat ≤ 0x39 then c.toNat - 0x30
  else if 0xff10 ≤ c.toNat && c.toNat ≤ 0xff19 then c.toNat - 0xff10
  else 0

/-- `int()` of a digit run. -/
def digitsToNat (ds : List Char) : Nat :=
  ds.foldl (fun n c => 10 * n + digitVal c) 0

/-! ## Smart municipal scraper (`src/scrapers/smart_municipal.py`) -/

/-- `SmartMunicipalScraper.LIST_PAGE_KEYWORDS` (lines 29–36). -/
def smartListPageKeywords : List String :=
  [ "議員一覧", "議員名簿", "議会議員", "議員紹介",
    "市議会議員", "区議会議員", "町議会議員", "村議会議員",
    "県議会議員", "都議会議員", "府議会議員", "道議会議員",
    "首長", "市長", "区長", "町長", "村長",
    "知事", "副知事",
    "member", "council", "assembly", "legislator" ]

/-- The control-character class removed by `parsers.clean_text`. -/
def controlChar (c : Char) : Bool :=
  c.toNat ≤ 0x08 || c.toNat = 0x0b || c.toNat = 0x0c ||
  (0x0e ≤ c.toNat && c.toNat ≤ 0x1f) ||
  (0x7f ≤ c.toNat && c.toNat ≤ 0x9f)

/-- `parsers.clean_text` (parsers.py, 138–157): collapse whitespace with
`' '.join(text.split())`, remove control characters, strip. -/
def cleanText (s : List Char) : List Char :=
  pyStrip ((joinWs (splitWs s)).filter (fun c => !controlChar c))

/-- The three `OFFICIAL_NAME_PATTERNS` of the smart scraper, as searches
over a text: kanji name shape `[一-鿿]{2,4}\s*[一-鿿]{1,4}`,
hiragana `[ぁ-ん]{2,}`, katakana `[ァ-ヴ]{2,}`. -/
def smartNamePatternHits (t : List Char) : List Bool :=
  [ (searchMatch (kanjiSeqMatchLen 2 4 4) t).isSome,
    hasPairOf hiraNarrow t,
    hasPairOf kataNarrow t ]

/-- `SmartMunicipalScraper._is_list_page` (lines 163–184): the lowered page
text contains a list keyword, or some table has at least 3 rows and at
least 2 of the 3 name patterns match somewhere in its text. -/
def smartIsListPage (p : Page) : Bool :=
  if smartListPageKeywords.any
      (fun k => infixOf (k.data.map pyLower) (p.text.map pyLower)) then true
  else
    p.tables.any (fun t =>
      decide (3 ≤ t.rows.length) &&
        decide (2 ≤ (smartNamePatternHits t.text).countP id))

/-- `SmartMunicipalScraper._find_name_column` keyword list (line 383). -/
def nameColKeywords : List String :=
  ["名前", "氏名", "議員名", "name", "名"]

/-- `SmartMunicipalScraper._find_name_column` (lines 381–390): index of the
first header whose lowered text contains a name keyword. -/
def findNameColumn : Nat → List (List Char) → Option Nat
  | _, [] => none
  | i, h :: rest =>
    if nameColKeywords.any (fun k => infixOf k.data (h.map pyLower)) then some i
    else findNameColumn (i + 1) rest

/-- `SmartMunicipalScraper._extract_name_from_text` (lines 404–415):
the kanji name pattern's match (stripped), else the text itself if it has
at most 20 characters. -/
def extractNameFromText (text : List Char) : Option (List Char) :=
  match searchMatch (kanjiSeqMatchLen 2 4 4) text with
  | some m => some (pyStrip m)
  | none => if text.length ≤ 20 then some text else none

/-- `re.search(r'(\d{2})歳', s)`: leftmost two digits immediately followed
by `歳`, as a number. -/
def searchAgeTwoDigits : List Char → Option Nat
  | a :: b :: m :: rest =>
    if pyDigit a && pyDigit b && m = '歳' then
      some (10 * digitVal a + digitVal b)
    else searchAgeTwoDigits (b :: m :: rest)
  | _ => none

/-- The per-row auxiliary-field loop of `_extract_from_table`
(smart_municipal.py, 294–304): every cell is scanned in order and each hit
overwrites the field, so the last matching cell wins. -/
def smartRowAux (cells : List (List Char)) : Option Nat × Option (List Char) :=
  cells.foldl
    (fun acc cell =>
      let ct := cleanText cell
      ( match searchAgeTwoDigits ct with
        | some a => some a
        | none => acc.1,
        if ["党", "会派", "無所属"].any (fun k => infixOf k.data ct) then some ct
        else acc.2 ))
    (none, none)

/-- One data row of `SmartMunicipalScraper._extract_from_table`
(lines 264–306): name from the name column if it exists and is in range,
else the first cell that looks like a name; a row yields a record only if
the name is non-empty (`if name:`). -/
def smartRowRecord (nameCol : Option Nat) (row : List (List Char)) :
    Option Official :=
  if row.isEmpty then none
  else
    let name? :=
      match nameCol with
      | some i =>
        if i < row.length then some (cleanText (row.getD i []))
        else (row.map cleanText).find? looksLikeName
      | none => (row.map cleanText).find? looksLikeName
    match name? with
    | some name =>
      if name.isEmpty then none
      else
        let aux := smartRowAux row
        some { name := name, extractionMethod := "table",
               age := aux.1, faction := aux.2 }
    | none => none

/-- `SmartMunicipalScraper._extract_from_table` (lines 238–308). -/
def smartExtractFromTable (p : Page) : List Official :=
  p.tables.flatMap (fun t =>
    if t.rows.length < 2 then []
    else
      let headers := (t.rows.headD []).map pyStrip
      let nameCol := findNameColumn 0 headers
      (t.rows.drop 1).filterMap (smartRowRecord nameCol))

/-- `SmartMunicipalScraper._extract_from_list` (lines 310–344): lists with
at least 2 items; items that look like names yield records named by
`_extract_name_from_text`. -/
def smartExtractFromList (p : Page) : List Official :=
  p.lists.flatMap (fun l =>
    if l.items.length < 2 then []
    else
      l.items.filterMap (fun item =>
        let t := cleanText item
        if looksLikeName t then
          match extractNameFromText t with
          | some name =>
            if name.isEmpty then none
            else some { name := name, extractionMethod := "list" }
          | none => none
        else none))

/-- `common_classes` of `SmartMunicipalScraper._extract_from_divs`
(line 357). -/
def smartCommonClasses : List String :=
  ["member", "official", "council", "giin", "list-item"]

/-- `SmartMunicipalScraper._extract_from_divs` (lines 346–379): for each
class keyword in order, all `div`s one of whose class values contains the
keyword case-insensitively. -/
def smartExtractFromDivs (p : Page) : List Official :=
  smartCommonClasses.flatMap (fun cn =>
    (p.divs.filter (fun d =>
        d.tag = "div".data &&
          d.classes.any (fun cl => infixOf cn.data (cl.map pyLower)))).filterMap
      (fun d =>
        let t := cleanText d.text
        if looksLikeName t then
          match extractNameFromText t with
          | some name =>
            if name.isEmpty then none
            else some { name := name, extractionMethod := "div" }
          | none => none
        else none))

/-- `SmartMunicipalScraper._extract_officials_from_page` (lines 205–236):
every strategy is run in order and its (non-empty) results are appended —
there is no `break`, so records of several strategies accumulate. -/
def smartExtractFromPage (p : Page) : List Official :=
  [smartExtractFromTable, smartExtractFromList, smartExtractFromDivs].foldl
    (fun acc f =>
      let r := f p
      if r.isEmpty then acc else acc ++ r)
    []

/-! ## Enhanced municipal scraper (`src/scrapers/enhanced_municipal.py`) -/

/-- Greedy match, at the start of `s`, of `[class]{2,maxLen}`: the leading
run must have length at least 2 and up to `maxLen` characters are taken. -/
def runMatchLen (f : Char → Bool) (maxLen : Nat) (s : List Char) :
    Option Nat :=
  let r := runLen f s
  if 2 ≤ r then some (min maxLen r) else none

/-- `EnhancedMunicipalScraper._extract_name` (lines 409–424): try the three
`NAME_PATTERNS` in order — kanji `[一-鿿]{1,5}\s*[一-鿿]{1,4}`,
hiragana `[぀-ゟ]{2,8}`, katakana `[゠-ヿ]{2,8}`; a pattern's stripped
match is returned only if `_is_likely_name` accepts it, otherwise the next
pattern is tried (the same pattern is not retried at later positions). -/
def enhancedExtractName (text : List Char) : Option (List Char) :=
  if text.length < 2 then none
  else
    let tryP : (List Char → Option Nat) → Option (List Char) := fun m =>
      match searchMatch m text with
      | some mt =>
        let nm := pyStrip mt
        if isLikelyName nm then some nm else none
      | none => none
    match tryP (kanjiSeqMatchLen 1 5 4) with
    | some nm => some nm
    | none =>
      match tryP (runMatchLen hiraBlock 8) with
      | some nm => some nm
      | none => tryP (runMatchLen kataBlock 8)

/-- `EnhancedMunicipalScraper.PARTY_KEYWORDS` (lines 41–45). -/
def partyKeywords : List String :=
  [ "自民党", "自由民主党", "立憲民主党", "公明党", "共産党", "日本共産党",
    "国民民主党", "維新", "日本維新の会", "社民党", "社会民主党",
    "れいわ", "れいわ新選組", "NHK党", "無所属", "市民", "県民", "都民" ]

/-- `EnhancedMunicipalScraper._extract_party` (lines 483–488): first
keyword occurring in the text. -/
def enhancedParty (text : List Char) : Option (List Char) :=
  (partyKeywords.find? (fun k => infixOf k.data text)).map (·.data)

/-- Start-anchored match of `(\d{1,2})歳`: one or two digits (greedy)
followed by `歳`. -/
def matchAgeSaiAt : List Char → Option Nat
  | a :: b :: c :: _ =>
    if pyDigit a && pyDigit b && c = '歳' then
      some (10 * digitVal a + digitVal b)
    else if pyDigit a && b = '歳' then some (digitVal a)
    else none
  | [a, b] => if pyDigit a && b = '歳' then some (digitVal a) else none
  | _ => none

/-- Start-anchored match of `年齢[：:]\s*(\d{1,2})`. -/
def matchAgeLabelAt : List Char → Option Nat
  | '年' :: '齢' :: c :: rest =>
    if c = '：' || c = ':' then
      match rest.dropWhile pySpace with
      | d1 :: d2 :: _ =>
        if pyDigit d1 then
          if pyDigit d2 then some (10 * digitVal d1 + digitVal d2)
          else some (digitVal d1)
        else none
      | [d1] => if pyDigit d1 then some (digitVal d1) else none
      | [] => none
    else none
  | _ => none

/-- `EnhancedMunicipalScraper._extract_age` (lines 490–503).  Of the five
`AGE_PATTERNS` only the first two can return a value: the birth-date and
era patterns fall through the `'歳' in pattern` / `'年齢' in pattern`
dispatch and yield nothing. -/
def enhancedAge (text : List Char) : Option Nat :=
  match searchFor matchAgeSaiAt text with
  | some a => some a
  | none => searchFor matchAgeLabelAt text

/-- Start-anchored match of `(\d+)` followed by the literal `marker`,
returning the number. -/
def matchNumThenAt (marker : List Char) (s : List Char) : Option Nat :=
  let ds := s.takeWhile pyDigit
  if ds.isEmpty then none
  else if startsList marker (s.drop ds.length) then some (digitsToNat ds)
  else none

/-- Start-anchored match of `当選回数[：:]\s*(\d+)`. -/
def matchTousenAt : List Char → Option Nat
  | '当' :: '選' :: '回' :: '数' :: c :: rest =>
    if c = '：' || c = ':' then
      let u := rest.dropWhile pySpace
      let ds := u.takeWhile pyDigit
      if ds.isEmpty then none else some (digitsToNat ds)
    else none
  | _ => none

/-- `EnhancedMunicipalScraper._extract_election_count` (lines 505–514):
`(\d+)期`, then `(\d+)回当選`, then `当選回数[：:]\s*(\d+)`. -/
def enhancedElectionCount (text : List Char) : Option Nat :=
  match searchFor (matchNumThenAt "期".data) text with
  | some n => some n
  | none =>
    match searchFor (matchNumThenAt "回当選".data) text with
    | some n => some n
    | none => searchFor matchTousenAt text

/-- The range `[あ-ん]` (U+3042–U+3093) of the third region pattern. -/
def hiraA (c : Char) : Bool :=
  0x3042 ≤ c.toNat && c.toNat ≤ 0x3093

/-- Start-anchored match of `([1-9]区)`. -/
def matchRegionDigitAt : List Char → Option (List Char)
  | c :: k :: _ =>
    if (0x31 ≤ c.toNat && c.toNat ≤ 0x39) && k = '区' then some [c, '区'] else none
  | _ => none

/-- Start-anchored match of `([東西南北中][部区])`. -/
def matchRegionCompassAt : List Char → Option (List Char)
  | c :: k :: _ =>
    if ['東', '西', '南', '北', '中'].contains c && (k = '部' || k = '区') then
      some [c, k]
    else none
  | _ => none

/-- Start-anchored greedy match of `([あ-ん]{2,5}区)`. -/
def matchRegionHiraAt (s : List Char) : Option (List Char) :=
  let r := runLen hiraA s
  ((List.range 6).reverse.filterMap (fun a =>
    if 2 ≤ a && a ≤ r then
      match (s.drop a).head? with
      | some k => if k = '区' then some (s.take a ++ ['区']) else none
      | none => none
    else none)).head?

/-- `EnhancedMunicipalScraper._extract_region` (lines 516–530). -/
def enhancedRegion (text : List Char) : Option (List Char) :=
  match searchFor matchRegionDigitAt text with
  | some g => some g
  | none =>
    match searchFor matchRegionCompassAt text with
    | some g => some g
    | none => searchFor matchRegionHiraAt text

/-- `_extract_additional_info` (lines 447–481) applied while building a
record: party, age, election count and region from the element text.  The
link-based fields (social media, official website) are outside the
document model. -/
def enhancedRecord (name : List Char) (method : String) (text : List Char) :
    Official :=
  { name := name, extractionMethod := method,
    party := enhancedParty text, age := enhancedAge text,
    electionCount := enhancedElectionCount text,
    region := enhancedRegion text }

/-- `EnhancedMunicipalScraper._extract_from_table` with
`_parse_official_data` (lines 241–265, 376–407): every table, all rows but
the first, rows with at least one cell; the name comes from the first
cell, the auxiliary fields from the space-joined stripped cell texts. -/
def enhancedExtractFromTable (p : Page) : List Official :=
  p.tables.flatMap (fun t =>
    (t.rows.drop 1).filterMap (fun row =>
      if row.isEmpty then none
      else
        let fullText := joinWs (row.map pyStrip)
        match enhancedExtractName (pyStrip (row.headD [])) with
        | some name => some (enhancedRecord name "table" fullText)
        | none => none))

/-- `EnhancedMunicipalScraper._extract_from_list` (lines 267–303): every
`li` of every list (no minimum size). -/
def enhancedExtractFromList (p : Page) : List Official :=
  p.lists.flatMap (fun l =>
    l.items.filterMap (fun item =>
      (enhancedExtractName item).map (fun nm => enhancedRecord nm "list" item)))

/-- `card_selectors` of `_extract_from_cards` (lines 316–320), as
tag/class pairs (`soup.select('div.member-card')` matches a `div` whose
class attribute contains the exact value). -/
def cardSelectors : List (String × String) :=
  [ ("div", "member-card"), ("div", "official-card"), ("div", "profile-card"),
    ("div", "member"), ("div", "official"), ("div", "profile"),
    ("article", "member"), ("article", "official") ]

/-- `EnhancedMunicipalScraper._extract_from_cards` (lines 305–342). -/
def enhancedExtractFromCards (p : Page) : List Official :=
  cardSelectors.flatMap (fun sel =>
    (p.divs.filter (fun d =>
        d.tag = sel.1.data && d.classes.contains sel.2.data)).filterMap
      (fun d =>
        (enhancedExtractName d.text).map
          (fun nm => enhancedRecord nm "card" d.text)))

/-- The class words of `_extract_from_divs`'s regex
`(member|official|profile|giin)` (line 355). -/
def enhancedDivWords : List String :=
  ["member", "official", "profile", "giin"]

/-- `EnhancedMunicipalScraper._extract_from_divs` (lines 344–374): `div`s
one of whose class values contains one of the words case-insensitively. -/
def enhancedExtractFromDivs (p : Page) : List Official :=
  (p.divs.filter (fun d =>
      d.tag = "div".data &&
        d.classes.any (fun cl =>
          enhancedDivWords.any (fun w => infixOf w.data (cl.map pyLower))))).filterMap
    (fun d =>
      (enhancedExtractName d.text).map (fun nm => enhancedRecord nm "div" d.text))

/-- `EnhancedMunicipalScraper._is_valid_official` (lines 572–584). -/
def isValidOfficial (o : Official) : Bool :=
  if o.name.isEmpty || o.name.length < 2 then false
  else isLikelyName o.name

/-- The strategy loop of
`EnhancedMunicipalScraper._extract_officials_from_page` (lines 222–234):
run each strategy in order; if it yields results and the
`_is_valid_official`-filtered results are non-empty, return those and stop
(`break`); otherwise continue with the next strategy. -/
def runStrategiesFirstSuccess : List (Page → List Official) → Page → List Official
  | [], _ => []
  | f :: rest, p =>
    let results := f p
    if results.isEmpty then runStrategiesFirstSuccess rest p
    else
      let valid := results.filter isValidOfficial
      if valid.isEmpty then runStrategiesFirstSuccess rest p
      else valid

/-- The strategy list of `_extract_officials_from_page` (lines 215–220),
in source order. -/
def enhancedStrategies : List (Page → List Official) :=
  [enhancedExtractFromTable, enhancedExtractFromList,
   enhancedExtractFromCards, enhancedExtractFromDivs]

/-- `EnhancedMunicipalScraper._extract_officials_from_page`
(lines 196–239), given the parsed page. -/
def enhancedExtractFromPage (p : Page) : List Official :=
  runStrategiesFirstSuccess enhancedStrategies p

/-- `_deduplicate_officials` — identical in both scrapers
(smart_municipal.py 417–428, enhanced_municipal.py 586–597): keep a record
whenever its name is non-empty (`if name:`) and not yet seen; the Python
`set` is modelled by a membership list. -/
def dedupOfficialsAux (seen : List (List Char)) : List Official → List Official
  | [] => []
  | r :: rest =>
    if !r.name.isEmpty && !seen.contains r.name then
      r :: dedupOfficialsAux (r.name :: seen) rest
    else dedupOfficialsAux seen rest

/-- `_deduplicate_officials` of both municipal scrapers. -/
def dedupOfficials (xs : List Official) : List Official :=
  dedupOfficialsAux [] xs

/-! ## Rate limiter (`src/core/http_client.py`)

Wall-clock time is modelled by `ℚ`.  A call to `HTTPClient.get` runs
`_rate_limit(domain, delay)` before the session lookup — also on cache
hits.  `slack` models the non-negative extra wall-clock time between the
computation of the sleep amount and the `time.time()` that records the
request start (scheduling overhead, sleep overshoot). -/

/-- `delay = delay or self.default_delay` (http_client.py line 153):
Python `or` falls back to the default when the override is `None` or
`0.0`. -/
def effectiveDelay (defaultDelay : ℚ) (override : Option ℚ) : ℚ :=
  match override with
  | none => defaultDelay
  | some d => if d = 0 then defaultDelay else d

/-- `self._last_request_time.get(domain)`. -/
def lookupDomain (st : List (String × ℚ)) (dom : String) : Option ℚ :=
  (st.find? (fun p => decide (p.1 = dom))).map (·.2)

/-- `self._last_request_time[domain] = t`. -/
def setDomain (dom : String) (t : ℚ) :
    List (String × ℚ) → List (String × ℚ)
  | [] => [(dom, t)]
  | (d, x) :: rest =>
    if d = dom then (d, t) :: rest else (d, x) :: setDomain dom t rest

/-- `_rate_limit` (lines 145–162): if the elapsed time since the last
request to the domain is below the effective delay, sleep for the
remainder; the returned value is the `time.time()` recorded as the new
last-request time, which is also the moment the request starts. -/
def rateLimitRecord (eff : ℚ) (last : Option ℚ) (now slack : ℚ) : ℚ :=
  match last with
  | none => now + slack
  | some t =>
    if now - t < eff then now + (eff - (now - t)) + slack
    else now + slack

/-- The rate-limiting step of `HTTPClient.get` (lines 164–231): effective
delay, sleep, record.  Returns the request start time and the updated
per-domain state.  The subsequent cache/network lookup happens after this
point, so the recorded spacing applies to cache hits as well. -/
def httpGetStart (defaultDelay : ℚ) (override : Option ℚ) (dom : String)
    (st : List (String × ℚ)) (now slack : ℚ) : ℚ × List (String × ℚ) :=
  let eff := effectiveDelay defaultDelay override
  let start := rateLimitRecord eff (lookupDomain st dom) now slack
  (start, setDomain dom start st)

/-! ## Specification-side formulations

These definitions follow the wording of the specification (not the code);
the theorems below compare them with the embedded code. -/

/-- First-success strategy semantics as the specification words it: the
classifier-filtered records of the first strategy whose filtered result is
non-empty, else nothing. -/
def firstAcceptedResults (fs : List (Page → List Official)) (p : Page) :
    List Official :=
  ((fs.map (fun f => (f p).filter isValidOfficial)).find?
    (fun l => !l.isEmpty)).getD []

/-- Spec-side list-page characterization, amended to what the code tests:
a curated keyword occurs in the lowered page text, or some table has at
least 3 rows and at least two of the three name-pattern kinds (kanji name
shape, hiragana run, katakana run) match somewhere in its text. -/
def specListPage (p : Page) : Prop :=
  (∃ k ∈ smartListPageKeywords,
      infixOf (k.data.map pyLower) (p.text.map pyLower) = true) ∨
  (∃ t ∈ p.tables, 3 ≤ t.rows.length ∧
    ((searchMatch (kanjiSeqMatchLen 2 4 4) t.text).isSome = true ∧
        hasPairOf hiraNarrow t.text = true ∨
      (searchMatch (kanjiSeqMatchLen 2 4 4) t.text).isSome = true ∧
        hasPairOf kataNarrow t.text = true ∨
      hasPairOf hiraNarrow t.text = true ∧ hasPairOf kataNarrow t.text = true))

/-- Spec-side deduplication: keep, for each name, only the first record
bearing it, in input order (fuel = list length forces structural
recursion; the filtered tail never grows). -/
def keepFirstByNameAux : Nat → List Official → List Official
  | 0, _ => []
  | _ + 1, [] => []
  | fuel + 1, r :: rest =>
    r :: keepFirstByNameAux fuel
      (rest.filter (fun x => !(decide (x.name = r.name))))

/-- Spec-side deduplication (first occurrence per name). -/
def keepFirstByName (xs : List Official) : List Official :=
  keepFirstByNameAux xs.length xs

/-- A "plain" character for the normalization-idempotence statement:
space, ASCII lowercase letter or digit, CJK ideograph, hiragana or
katakana letter.  Plain characters are caseless, NFKC-stable word or
space characters. -/
def plainChar (c : Char) : Bool :=
  c = ' ' || (0x61 ≤ c.toNat && c.toNat ≤ 0x7a) ||
  (0x30 ≤ c.toNat && c.toNat ≤ 0x39) || kanjiChar c ||
  (0x3041 ≤ c.toNat && c.toNat ≤ 0x3096) ||
  (0x30a1 ≤ c.toNat && c.toNat ≤ 0x30fa)

/-! ## Concrete pages used by the scenario claims -/

/-- A classified page holding both a roster table (one data row) and a
two-item roster list. -/
def pageTableAndList : Page :=
  { text := "議員一覧名前田中太郎佐藤花子鈴木一郎".data,
    tables := [{ rows := [["名前".data], ["田中太郎".data]],
                 text := "名前田中太郎".data }],
    lists := [{ items := ["佐藤花子".data, "鈴木一郎".data] }],
    divs := [] }

/-- A keyword-free page with a 5-row table, 3 of whose cells match the
kanji name pattern; all names are kanji-only. -/
def pageKanjiTable : Page :=
  { text := "名前地区田中太郎北佐藤花子南鈴木一郎東山田西".data,
    tables := [{ rows := [ ["名前".data, "地区".data],
                           ["田中太郎".data, "北".data],
                           ["佐藤花子".data, "南".data],
                           ["鈴木一郎".data, "東".data],
                           ["山田".data, "西".data] ],
                 text := "名前地区田中太郎北佐藤花子南鈴木一郎東山田西".data }],
    lists := [], divs := [] }

/-- The same table with one hiragana cell, so that two of the three name
pattern kinds match. -/
def pageKanjiKanaTable : Page :=
  { text := "名前地区田中太郎北佐藤花子南鈴木一郎東山田にし".data,
    tables := [{ rows := [ ["名前".data, "地区".data],
                           ["田中太郎".data, "北".data],
                           ["佐藤花子".data, "南".data],
                           ["鈴木一郎".data, "東".data],
                           ["山田".data, "にし".data] ],
                 text := "名前地区田中太郎北佐藤花子南鈴木一郎東山田にし".data }],
    lists := [], divs := [] }

end Scrape


namespace Scrape

/-! ## Claim theorems -/

/-- C1 (counterexample): on a classified page holding both a roster table
and a roster list, `SmartMunicipalScraper._extract_officials_from_page`
returns the table record *and* the two list records — records of two
different strategies are combined, contradicting first-success
semantics. -/
theorem C1_counterexample :
    smartIsListPage pageTableAndList = true ∧
    smartExtractFromPage pageTableAndList =
      [ { name := "田中太郎".data, extractionMethod := "table" },
        { name := "佐藤花子".data, extractionMethod := "list" },
        { name := "鈴木一郎".data, extractionMethod := "list" } ] ∧
    (smartExtractFromPage pageTableAndList).map (·.extractionMethod) =
      ["table", "list", "list"] := by
  decide

/-- C2 (counterexample): with the semantic backend unavailable, the exact
tier and the fuzzy tier (threshold 85) both fail on query `"abcde"` and
pool `["abcdefg"]`, yet `match_with_fallback` with `use_semantic` does not
return null: the semantic tier falls back to fuzzy matching at threshold
`0.7 * 100 = 70` and returns the candidate (token-sort score 250/3 ≈ 83.3)
with method `semantic`. -/
theorem C2_counterexample :
    findExactMatch "abcde".data (createNameIndex ["abcdefg".data]) = none ∧
    fuzzyMatch 85 1 "abcde".data ["abcdefg".data] = [] ∧
    matchWithFallback true 85 (mkRat 7 10) "abcde".data ["abcdefg".data] =
      some ("abcdefg".data, mkRat 250 3, "semantic") := by
  decide

/-- C3 (counterexample): the two live extraction gates and the offline
batch filter are not the same function — on input `"氏名"` both live gates
accept while the offline filter rejects. -/
theorem C3_counterexample :
    looksLikeName "氏名".data = true ∧
    isLikelyName "氏名".data = true ∧
    isValidPoliticianName "氏名".data = false := by
  decide

/-- C3 (amended): the live gates are distinct, mutually inequivalent
predicates: both accept the table header `"氏名"` which the offline filter
rejects; the offline filter accepts the pure-hiragana `"ひめの"` which the
smart gate rejects; all three accept `"田中太郎"`. -/
theorem C3_amended_gates_differ :
    looksLikeName "氏名".data = true ∧
    isLikelyName "氏名".data = true ∧
    isValidPoliticianName "氏名".data = false ∧
    isValidPoliticianName "ひめの".data = true ∧
    looksLikeName "ひめの".data = false ∧
    looksLikeName "田中太郎".data = true ∧
    isLikelyName "田中太郎".data = true ∧
    isValidPoliticianName "田中太郎".data = true := by
  decide

/-- C4 (counterexample): `normalize_name` keeps the interior space of
`"田中 太郎"`, so the two forms are not post-normalization equal, and
`match_with_fallback` with the default thresholds returns `None` on that
query and pool — not an exact match with score 100. -/
theorem C4_counterexample :
    normalizeName "田中 太郎".data ≠ normalizeName "田中太郎".data ∧
    matchWithFallback false 85 (mkRat 7 10) "田中 太郎".data
      ["田中太郎".data] = none := by
  decide

/-- C4 (amended): whitespace collapse in `normalize_name` only collapses
runs, it does not delete interior spaces: both forms normalize to
themselves, the spaced query finds nothing in a pool holding only the
unspaced form, and it matches exactly when the pool holds the spaced
form. -/
theorem C4_amended_space_preserved :
    normalizeName "田中 太郎".data = "田中 太郎".data ∧
    normalizeName "田中太郎".data = "田中太郎".data ∧
    matchWithFallback false 85 (mkRat 7 10) "田中 太郎".data
      ["田中太郎".data] = none ∧
    matchWithFallback false 85 (mkRat 7 10) "田中 太郎".data
      ["田中 太郎".data] = some ("田中 太郎".data, 100, "exact") := by
  decide

/-- C5 (counterexample): `normalize_name` is not idempotent: on
`"株式・会社"` the first pass removes the punctuation `・` (leaving
`"株式会社"`), and only a second pass then removes the newly-formed
corporate suffix, yielding the empty string. -/
theorem C5_counterexample :
    normalizeName (normalizeName "株式・会社".data) ≠
      normalizeName "株式・会社".data := by
  decide

/-- C6 (counterexample): with query `""` and pool `[""]` an exact
normalized match exists (the pool's first matching candidate is `""`),
but Python's `if exact_match:` is falsy on the empty string, so the
resolver falls through to the fuzzy tier and returns method `fuzzy`, not
`exact`. -/
theorem C6_counterexample :
    List.find? (fun c => decide (normalizeName c = normalizeName []))
      [([] : List Char)] = some [] ∧
    matchWithFallback false 85 (mkRat 7 10) [] [[]] =
      some ([], 100, "fuzzy") := by
  decide

/-- C7 (counterexample): a keyword-free page with a 5-row table, 3 of
whose cells match the kanji name pattern, is NOT classified as a list
page: `_is_list_page` counts how many of the three pattern *kinds* match
the table text (here only the kanji kind), not how many cells match. -/
theorem C7_counterexample :
    (∃ t ∈ pageKanjiTable.tables, 3 ≤ t.rows.length ∧
      2 ≤ (t.rows.flatMap (fun r => r)).countP
            (fun cell => (searchMatch (kanjiSeqMatchLen 2 4 4) cell).isSome)) ∧
    smartIsListPage pageKanjiTable = false := by
  decide

end Scrape

namespace Scrape

/-! ## Bridge lemmas for the `mkRat` encodings -/

theorem ratDiv100_eq (q : ℚ) : ratDiv100 q = q / 100 := by
  rw [ratDiv100, Rat.mkRat_eq_div]
  push_cast
  rw [← div_div, Rat.num_div_den]

theorem ratMul100_eq (q : ℚ) : ratMul100 q = q * 100 := by
  rw [ratMul100, Rat.mkRat_eq_div]
  push_cast
  rw [mul_div_right_comm, Rat.num_div_den]

theorem ratMul100_ratDiv100 (q : ℚ) : ratMul100 (ratDiv100 q) = q := by
  rw [ratMul100_eq, ratDiv100_eq, div_mul_cancel₀]
  norm_num

theorem indelSim_eq_div (x y : List Char) (h : x.length + y.length ≠ 0) :
    indelSim x y =
      (100 * (2 * (lcsLen x y : ℚ))) / ((x.length + y.length : ℕ) : ℚ) := by
  rw [indelSim, if_neg h, Rat.mkRat_eq_div]
  push_cast
  ring

/-! ## C2: the semantic tier with the backend unavailable -/

/-- C2 (amended): when `sentence-transformers` is unavailable and tiers
1–2 have failed, the semantic tier is *not* skipped: `match_with_fallback`
returns the top fuzzy match at threshold `semantic_threshold * 100`
labelled `semantic`, and null exactly when that fallback also finds
nothing. -/
theorem C2_amended_semantic_fallback (ft st : ℚ) (q : List Char)
    (cs : List (List Char))
    (hex : findExactMatch q (createNameIndex cs) = none ∨
      findExactMatch q (createNameIndex cs) = some [])
    (hfz : fuzzyMatch ft 1 q cs = []) :
    matchWithFallback true ft st q cs =
      (fuzzyMatch (ratMul100 st) 1 q cs).head?.map
        (fun p => (p.1, p.2, "semantic")) := by
  have tiers : fuzzySemanticTiers true ft st q cs =
      (fuzzyMatch (ratMul100 st) 1 q cs).head?.map
        (fun p => (p.1, p.2, "semantic")) := by
    simp only [fuzzySemanticTiers, hfz, semanticMatchUnavailable]
    cases hl : fuzzyMatch (ratMul100 st) 1 q cs with
    | nil => simp
    | cons p rest =>
      obtain ⟨m, s⟩ := p
      simp [ratMul100_ratDiv100]
  rcases hex with h | h <;> simp only [matchWithFallback, h, tiers]
  simp [List.isEmpty]

/-- C2 (witness): a concrete instantiation of
`C2_amended_semantic_fallback` where every tier fails. -/
theorem C2_witness :
    (findExactMatch "abc".data (createNameIndex ["wxyz".data]) = none ∨
      findExactMatch "abc".data (createNameIndex ["wxyz".data]) = some []) ∧
    fuzzyMatch 85 1 "abc".data ["wxyz".data] = [] ∧
    matchWithFallback true 85 (mkRat 7 10) "abc".data ["wxyz".data] =
      (fuzzyMatch (ratMul100 (mkRat 7 10)) 1 "abc".data ["wxyz".data]).head?.map
        (fun p => (p.1, p.2, "semantic")) :=
  ⟨Or.inl (by decide), by decide,
    C2_amended_semantic_fallback 85 (mkRat 7 10) _ _ (Or.inl (by decide))
      (by decide)⟩

/-! ## C6: the exact tier -/

theorem indexGet_indexInsert (k n key : List Char)
    (idx : List (List Char × List (List Char))) :
    indexGet (indexInsert k n idx) key =
      if k = key then indexGet idx key ++ [n] else indexGet idx key := by
  induction idx with
  | nil =>
    by_cases h : k = key <;> simp [indexInsert, indexGet, List.find?, h]
  | cons hd tl ih =>
    obtain ⟨d, v⟩ := hd
    simp only [indexInsert]
    by_cases hdk : d = k
    · subst hdk
      by_cases hdkey : d = key <;> simp [indexGet, hdkey]
    · simp only [if_neg hdk, indexGet]
      by_cases hdkey : d = key
      · subst hdkey
        have hkd : ¬ k = d := fun h => hdk h.symm
        simp [if_neg hkd]
      · simp [if_neg hdkey, ih]

theorem indexGet_foldl (cs : List (List Char))
    (idx : List (List Char × List (List Char))) (key : List Char) :
    indexGet (cs.foldl (fun i n => indexInsert (normalizeName n) n i) idx) key =
      indexGet idx key ++
        cs.filter (fun c => decide (normalizeName c = key)) := by
  induction cs generalizing idx with
  | nil => simp
  | cons c cs ih =>
    simp only [List.foldl_cons, ih, indexGet_indexInsert, List.filter_cons]
    by_cases h : normalizeName c = key <;> simp [h]

theorem head?_filter {α : Type} (p : α → Bool) (l : List α) :
    (l.filter p).head? = l.find? p := by
  induction l with
  | nil => rfl
  | cons a l ih =>
    by_cases h : p a <;> simp [List.filter_cons, List.find?_cons, h, ih]

theorem findExactMatch_eq_find? (q : List Char) (cs : List (List Char)) :
    findExactMatch q (createNameIndex cs) =
      cs.find? (fun c => decide (normalizeName c = normalizeName q)) := by
  rw [findExactMatch, createNameIndex, indexGet_foldl]
  simp [indexGet, head?_filter]

/-- C6 (amended): if some candidate has the query's normalized name and
the first such candidate (in pool order, the one `find_exact_match`
returns) is a non-empty string, `match_with_fallback` returns that
candidate with method `exact` and score 100, regardless of the fuzzy and
semantic thresholds and of `use_semantic`. -/
theorem C6_amended_exact_tier (useSem : Bool) (ft st : ℚ) (q m : List Char)
    (cs : List (List Char))
    (hfind : cs.find? (fun c => decide (normalizeName c = normalizeName q)) =
      some m)
    (hne : m ≠ []) :
    matchWithFallback useSem ft st q cs = some (m, 100, "exact") := by
  have h := findExactMatch_eq_find? q cs
  rw [hfind] at h
  simp only [matchWithFallback, h]
  cases m with
  | nil => exact absurd rfl hne
  | cons a t => simp [List.isEmpty]

/-- C6 (witness): a concrete pool where the second candidate matches the
query exactly after normalization. -/
theorem C6_witness :
    List.find?
        (fun c => decide (normalizeName c = normalizeName "田中太郎".data))
        ["佐藤".data, "田中太郎".data] = some "田中太郎".data ∧
    "田中太郎".data ≠ [] ∧
    matchWithFallback false 85 (mkRat 7 10) "田中太郎".data
      ["佐藤".data, "田中太郎".data] = some ("田中太郎".data, 100, "exact") :=
  ⟨by decide, by decide,
    C6_amended_exact_tier false 85 (mkRat 7 10) _ _ _ (by decide) (by decide)⟩

/-! ## C1: strategy combination semantics -/

theorem runStrategies_eq_firstAccepted (fs : List (Page → List Official))
    (p : Page) :
    runStrategiesFirstSuccess fs p = firstAcceptedResults fs p := by
  induction fs with
  | nil => rfl
  | cons f rest ih =>
    simp only [runStrategiesFirstSuccess, firstAcceptedResults, List.map_cons,
      List.find?_cons]
    by_cases h1 : (f p).isEmpty
    · have h2 : (f p).filter isValidOfficial = [] := by
        rw [List.isEmpty_iff] at h1
        simp [h1]
      simp only [h2]
      simpa [firstAcceptedResults, h1] using ih
    · by_cases h2 : ((f p).filter isValidOfficial).isEmpty
      · rw [List.isEmpty_iff] at h2
        simp only [h2]
        simpa [firstAcceptedResults, h1, List.isEmpty_iff, h2] using ih
      · have h2' : ((f p).filter isValidOfficial).isEmpty = false := by
          simpa using h2
        simp [h1, h2']

/-- C1 (amended): the enhanced scraper has first-success semantics — its
page extraction equals the classifier-filtered records of the first
strategy (table, list, card, div) whose filtered result is non-empty —
while the smart scraper runs its three strategies (table, list, div; it
has no card strategy) and concatenates all their records. -/
theorem C1_amended_strategy_semantics :
    (∀ p : Page,
      enhancedExtractFromPage p = firstAcceptedResults enhancedStrategies p) ∧
    (∀ p : Page,
      smartExtractFromPage p =
        smartExtractFromTable p ++ smartExtractFromList p ++
          smartExtractFromDivs p) := by
  constructor
  · intro p
    exact runStrategies_eq_firstAccepted enhancedStrategies p
  · intro p
    have step : ∀ (acc r : List Official),
        (if r.isEmpty then acc else acc ++ r) = acc ++ r := by
      intro acc r
      cases r <;> simp
    simp only [smartExtractFromPage, List.foldl_cons, List.foldl_nil, step]
    simp

/-! ## C7: list-page classification -/

theorem two_of_three (x y z : Bool) :
    2 ≤ [x, y, z].countP id ↔
      (x = true ∧ y = true ∨ x = true ∧ z = true ∨ y = true ∧ z = true) := by
  cases x <;> cases y <;> cases z <;> decide

/-- C7 (amended): the classifier accepts a page iff a curated keyword
occurs in the lowered page text, or some table with at least 3 rows has a
text matched by at least two of the three name-pattern *kinds* (kanji
name shape, hiragana run, katakana run) — not by the number of matching
cells.  The scenario table with kanji-only name cells is rejected; with a
kana cell present it is accepted. -/
theorem C7_amended_characterization :
    (∀ p : Page, smartIsListPage p = true ↔ specListPage p) ∧
    smartIsListPage pageKanjiTable = false ∧
    smartIsListPage pageKanjiKanaTable = true := by
  refine ⟨?_, by decide, by decide⟩
  intro p
  rw [smartIsListPage, specListPage]
  by_cases hk : smartListPageKeywords.any
      (fun k => infixOf (k.data.map pyLower) (p.text.map pyLower))
  · simp only [if_pos hk]
    constructor
    · intro _
      exact Or.inl (by simpa using List.any_eq_true.1 hk)
    · intro _
      trivial
  · simp only [if_neg hk]
    rw [List.any_eq_true]
    constructor
    · rintro ⟨t, ht, hcond⟩
      rw [Bool.and_eq_true, decide_eq_true_eq, decide_eq_true_eq] at hcond
      obtain ⟨h3, h2⟩ := hcond
      refine Or.inr ⟨t, ht, h3, ?_⟩
      exact (two_of_three _ _ _).1 h2
    · rintro (⟨k, hk', hinf⟩ | ⟨t, ht, h3, hkinds⟩)
      · exact absurd (List.any_eq_true.2 ⟨k, hk', hinf⟩) hk
      · refine ⟨t, ht, ?_⟩
        rw [Bool.and_eq_true, decide_eq_true_eq, decide_eq_true_eq]
        exact ⟨h3, (two_of_three _ _ _).2 hkinds⟩

/-! ## C8: the offline name classifier -/

theorem startsList_iff (p s : List Char) : startsList p s = true ↔ p <+: s := by
  induction p generalizing s with
  | nil => simp [startsList]
  | cons a p ih =>
    cases s with
    | nil => simp [startsList]
    | cons b t =>
      simp [startsList, Bool.and_eq_true, decide_eq_true_eq, ih,
        List.cons_prefix_cons]

theorem infixOf_iff (p s : List Char) : infixOf p s = true ↔ p <:+: s := by
  induction s with
  | nil =>
    simp [infixOf, startsList_iff]
  | cons c t ih =>
    simp [infixOf, Bool.or_eq_true, startsList_iff, ih, List.infix_cons_iff]

theorem infix_dropWhile (p : Char → Bool) (pat s : List Char) (hne : pat ≠ [])
    (hp : ∀ c ∈ pat, p c = false) (h : pat <:+: s) :
    pat <:+: s.dropWhile p := by
  induction s with
  | nil => simpa using h
  | cons a t ih =>
    by_cases ha : p a
    · rw [List.dropWhile_cons_of_pos ha]
      apply ih
      rcases List.infix_cons_iff.1 h with hpre | hinf
      · cases pat with
        | nil => exact absurd rfl hne
        | cons b pat' =>
          rw [List.cons_prefix_cons] at hpre
          obtain ⟨hba, _⟩ := hpre
          have : p b = false := hp b (by simp)
          rw [hba, ha] at this
          cases this
      · exact hinf
    · rwa [List.dropWhile_cons_of_neg ha]

theorem infix_pyStrip (pat s : List Char) (hne : pat ≠ [])
    (hp : ∀ c ∈ pat, pySpace c = false) (h : pat <:+: s) :
    pat <:+: pyStrip s := by
  rw [pyStrip]
  have h1 : pat <:+: s.dropWhile pySpace := infix_dropWhile _ _ _ hne hp h
  have h2 : pat.reverse <:+: (s.dropWhile pySpace).reverse :=
    List.reverse_infix.2 h1
  have hne' : pat.reverse ≠ [] := by simpa using hne
  have hp' : ∀ c ∈ pat.reverse, pySpace c = false := by simpa using hp
  have h3 := infix_dropWhile pySpace _ _ hne' hp' h2
  have h4 := List.reverse_infix.2 h3
  simpa using h4

theorem not_space_of_kanji {c : Char} (h : kanjiChar c = true) :
    pySpace c = false := by
  by_contra hs
  rw [Bool.not_eq_false, pySpace] at hs
  simp only [Bool.or_eq_true, decide_eq_true_eq] at hs
  rcases hs with (((((((h' | h') | h') | h') | h') | h') | h') | h') <;>
    (subst h'; exact absurd h (by decide))

theorem not_digit_of_kanji {c : Char} (h : kanjiChar c = true) :
    pyDigit c = false := by
  rw [kanjiChar, Bool.and_eq_true, decide_eq_true_eq, decide_eq_true_eq] at h
  rw [pyDigit]
  simp only [Bool.or_eq_true, Bool.and_eq_true, decide_eq_true_eq,
    Bool.or_eq_false_iff, Bool.and_eq_false_iff, decide_eq_false_iff_not]
  omega

theorem japanese_of_kanji {c : Char} (h : kanjiChar c = true) :
    japaneseChar c = true := by
  simp [japaneseChar, h]

theorem nameChar_of_kanji {c : Char} (h : kanjiChar c = true) :
    nameChar c = true := by
  simp [nameChar, japanese_of_kanji h]

theorem dropWhile_eq_self_of {p : Char → Bool} {s : List Char}
    (h : ∀ c ∈ s, p c = false) : s.dropWhile p = s := by
  cases s with
  | nil => rfl
  | cons a t =>
    rw [List.dropWhile_cons_of_neg]
    simp [h a (by simp)]

theorem pyStrip_of_nonspace {s : List Char}
    (h : ∀ c ∈ s, pySpace c = false) : pyStrip s = s := by
  rw [pyStrip, dropWhile_eq_self_of h,
    dropWhile_eq_self_of (fun c hc => h c (List.mem_reverse.1 hc)),
    List.reverse_reverse]

theorem hasFourDigitsYear_eq_false {s : List Char}
    (h : ∀ c ∈ s, pyDigit c = false) : hasFourDigitsYear s = false := by
  induction s with
  | nil => rfl
  | cons a t ih =>
    cases t with
    | nil => rfl
    | cons b u =>
      cases u with
      | nil => rfl
      | cons c2 v =>
        cases v with
        | nil => rfl
        | cons d2 w =>
          cases w with
          | nil => rfl
          | cons e2 x =>
            rw [hasFourDigitsYear]
            have ha : pyDigit a = false := h a (by simp)
            have ht : hasFourDigitsYear (b :: c2 :: d2 :: e2 :: x) = false :=
              ih (fun c hc => h c (by simp [List.mem_cons] at hc ⊢; tauto))
            simp [ha, ht]

theorem hasDigitThen_eq_false {mark : Char} {s : List Char}
    (h : ∀ c ∈ s, pyDigit c = false) : hasDigitThen mark s = false := by
  induction s with
  | nil => rfl
  | cons a t ih =>
    cases t with
    | nil => rfl
    | cons b u =>
      rw [hasDigitThen]
      have ha : pyDigit a = false := h a (by simp)
      have ht : hasDigitThen mark (b :: u) = false :=
        ih (fun c hc => h c (by simp [List.mem_cons] at hc ⊢; tauto))
      simp [ha, ht]

theorem dateLike_eq_false {s : List Char}
    (h : ∀ c ∈ s, pyDigit c = false) : dateLike s = false := by
  rw [dateLike, hasFourDigitsYear_eq_false h, hasDigitThen_eq_false h,
    hasDigitThen_eq_false h]
  rfl

set_option maxRecDepth 8000 in
theorem excludeKeywords_shape :
    ∀ kw ∈ excludeKeywords, kw.data ≠ [] ∧ ∀ c ∈ kw.data, pySpace c = false := by
  decide

/-- C8: the offline classifier `is_valid_politician_name` (a total
function of the input string): any input containing an
exclusion-vocabulary term is rejected; any input whose stripped form is
shorter than 2 or longer than 10 characters is rejected; any 2–4
character pure-kanji input free of exclusion terms is accepted; the
header `"氏名"` is rejected and `"田中太郎"` accepted. -/
theorem C8_name_classifier :
    (∀ (raw : List Char) (kw : String), kw ∈ excludeKeywords →
      infixOf kw.data raw = true → isValidPoliticianName raw = false) ∧
    (∀ raw : List Char,
      (pyStrip raw).length < 2 ∨ 10 < (pyStrip raw).length →
      isValidPoliticianName raw = false) ∧
    (∀ raw : List Char, 2 ≤ raw.length → raw.length ≤ 4 →
      (∀ c ∈ raw, kanjiChar c = true) →
      (∀ kw ∈ excludeKeywords, infixOf kw.data raw = false) →
      isValidPoliticianName raw = true) ∧
    isValidPoliticianName "氏名".data = false ∧
    isValidPoliticianName "田中太郎".data = true := by
  refine ⟨?_, ?_, ?_, by decide, by decide⟩
  · -- any exclusion-vocabulary occurrence forces rejection
    intro raw kw hkw hinf
    obtain ⟨hne, hsp⟩ := excludeKeywords_shape kw hkw
    have hstrip : infixOf kw.data (pyStrip raw) = true :=
      (infixOf_iff _ _).2
        (infix_pyStrip _ _ hne hsp ((infixOf_iff _ _).1 hinf))
    rw [isValidPoliticianName]
    split_ifs with h1
    · rfl
    · rw [isValidStripped]
      split_ifs with h2 h3 h4 h5 h6 h7 h8 <;> try rfl
      exact absurd (List.any_eq_true.2 ⟨kw, hkw, hstrip⟩) h4
  · -- stripped length out of range forces rejection
    intro raw hlen
    rw [isValidPoliticianName]
    split_ifs with h1
    · rfl
    · rw [isValidStripped]
      split_ifs with h2 h3 h4 h5 h6 h7 h8 <;> try rfl
      exfalso
      simp only [Bool.or_eq_true, decide_eq_true_eq, not_or] at h2
      omega
  · -- 2–4 character pure-kanji, exclusion-free inputs are accepted
    intro raw h2le hle4 hkanji hkw
    have hnonspace : ∀ c ∈ raw, pySpace c = false :=
      fun c hc => not_space_of_kanji (hkanji c hc)
    have hstrip : pyStrip raw = raw := pyStrip_of_nonspace hnonspace
    have hnodigit : ∀ c ∈ raw, pyDigit c = false :=
      fun c hc => not_digit_of_kanji (hkanji c hc)
    obtain ⟨a, rest, rfl⟩ : ∃ a rest, raw = a :: rest := by
      cases raw with
      | nil => simp at h2le
      | cons a rest => exact ⟨a, rest, rfl⟩
    rw [isValidPoliticianName]
    split_ifs with h0
    · simp at h0
    · rw [isValidStripped]
      simp only [hstrip]
      split_ifs with h2 h3 h4 h5 h6 h7 h8
      · exfalso
        simp only [Bool.or_eq_true, decide_eq_true_eq] at h2
        omega
      · exfalso
        have hj : japaneseChar a = true := japanese_of_kanji (hkanji a (by simp))
        simp only [Bool.not_eq_true', List.any_eq_false] at h3
        exact absurd hj (by simpa using h3 a (by simp))
      · exfalso
        rw [List.any_eq_true] at h4
        obtain ⟨kw, hkwm, hin⟩ := h4
        exact absurd hin (by simp [hkw kw hkwm])
      · exact absurd h5 (by simp [dateLike_eq_false hnodigit])
      · exfalso
        have hz : (a :: rest).countP pyDigit = 0 :=
          List.countP_eq_zero.2 (by simpa using hnodigit)
        omega
      · exfalso
        rw [symbolReject, Bool.and_eq_true] at h7
        have hpar : countChar '（' (a :: rest) = 0 := by
          rw [countChar]
          refine List.countP_eq_zero.2 ?_
          intro c hc hdec
          have heq : c = '（' := of_decide_eq_true hdec
          subst heq
          exact absurd (hkanji _ hc) (by decide)
        have hpar2 : countChar '）' (a :: rest) = 0 := by
          rw [countChar]
          refine List.countP_eq_zero.2 ?_
          intro c hc hdec
          have heq : c = '）' := of_decide_eq_true hdec
          subst heq
          exact absurd (hkanji _ hc) (by decide)
        rw [hpar, hpar2] at h7
        simpa using h7.2
      · rfl
      · exfalso
        apply h8
        rw [Bool.and_eq_true]
        refine ⟨by simp, ?_⟩
        rw [List.all_eq_true]
        intro c hc
        exact nameChar_of_kanji (hkanji c hc)

set_option maxRecDepth 8000 in
/-- C8 (witness): the classifier theorem applied to concrete inputs —
an input containing the exclusion term `"選挙"`, a too-short input, and a
clean 3-kanji name. -/
theorem C8_witness :
    (("選挙" : String) ∈ excludeKeywords ∧
      infixOf "選挙".data "市選挙場".data = true ∧
      isValidPoliticianName "市選挙場".data = false) ∧
    ((pyStrip "山".data).length < 2 ∧
      isValidPoliticianName "山".data = false) ∧
    (2 ≤ "山下清".data.length ∧ "山下清".data.length ≤ 4 ∧
      isValidPoliticianName "山下清".data = true) :=
  ⟨⟨by decide, by decide,
      C8_name_classifier.1 "市選挙場".data "選挙" (by decide) (by decide)⟩,
    ⟨by decide, C8_name_classifier.2.1 "山".data (Or.inl (by decide))⟩,
    ⟨by decide, by decide,
      C8_name_classifier.2.2.1 "山下清".data (by decide) (by decide)
        (by decide) (by decide)⟩⟩

/-! ## C9: per-domain request spacing -/

theorem lookupDomain_setDomain (st : List (String × ℚ)) (dom : String)
    (t : ℚ) : lookupDomain (setDomain dom t st) dom = some t := by
  induction st with
  | nil => simp [setDomain, lookupDomain, List.find?]
  | cons hd tl ih =>
    obtain ⟨d, x⟩ := hd
    by_cases h : d = dom
    · subst h
      simp [setDomain, lookupDomain, List.find?]
    · simp only [setDomain, if_neg h, lookupDomain, List.find?_cons]
      rw [lookupDomain] at ih
      simpa [h] using ih

/-- C9: for two consecutive `get` calls to the same domain — the second
entered after the first recorded its start — the gap between the recorded
request start times is at least the second call's configured delay (its
override if given, else the client default), given non-negative delays
and scheduling slack.  The rate-limiting step runs before the cache
lookup, so this holds whether or not the second response comes from the
cache. -/
theorem C9_rate_limit_gap (defaultDelay : ℚ) (ov1 ov2 : Option ℚ)
    (dom : String) (st0 : List (String × ℚ)) (now1 slack1 now2 slack2 : ℚ)
    (hd : 0 ≤ defaultDelay)
    (hov : ∀ d, ov2 = some d → 0 ≤ d)
    (hs : 0 ≤ slack2) :
    ov2.getD defaultDelay ≤
      (httpGetStart defaultDelay ov2 dom
          (httpGetStart defaultDelay ov1 dom st0 now1 slack1).2 now2
          slack2).1 -
        (httpGetStart defaultDelay ov1 dom st0 now1 slack1).1 := by
  have hlk : lookupDomain
      (httpGetStart defaultDelay ov1 dom st0 now1 slack1).2 dom =
      some (httpGetStart defaultDelay ov1 dom st0 now1 slack1).1 := by
    rw [httpGetStart]
    exact lookupDomain_setDomain _ _ _
  have heff : ov2.getD defaultDelay ≤ effectiveDelay defaultDelay ov2 := by
    cases ov2 with
    | none => simp [effectiveDelay]
    | some d =>
      by_cases hd0 : d = 0
      · subst hd0
        simpa [effectiveDelay] using hd
      · simp [effectiveDelay, hd0]
  set r1 := (httpGetStart defaultDelay ov1 dom st0 now1 slack1).1 with hr1
  rw [httpGetStart]
  simp only [hlk, rateLimitRecord]
  split_ifs with hlt
  · linarith
  · push_neg at hlt
    linarith

/-- C9 (witness): default delay 2 s, second call overriding the delay to
1 s half a second after the first; the recorded gap is at least 1 s. -/
theorem C9_witness :
    (0 : ℚ) ≤ 2 ∧ (1 : ℚ) ≤
      (httpGetStart 2 (some 1) "example.jp"
          (httpGetStart 2 none "example.jp" [] 0 0).2 (1/2) 0).1 -
        (httpGetStart 2 none "example.jp" [] 0 0).1 := by
  constructor
  · norm_num
  · have h := C9_rate_limit_gap 2 none (some 1) "example.jp" [] 0 0 (1/2) 0
      (by norm_num) (by intro d hd; cases hd; norm_num) (by norm_num)
    simpa using h

/-! ## C10: deduplication -/

theorem dedupOfficialsAux_congr (xs : List Official) :
    ∀ seen1 seen2 : List (List Char),
      (∀ x, seen1.contains x = seen2.contains x) →
      dedupOfficialsAux seen1 xs = dedupOfficialsAux seen2 xs := by
  induction xs with
  | nil => intro _ _ _; rfl
  | cons r rest ih =>
    intro seen1 seen2 hmem
    rw [dedupOfficialsAux, dedupOfficialsAux, hmem]
    split_ifs with h
    · rw [ih (r.name :: seen1) (r.name :: seen2)
        (fun x => by simp only [List.contains_cons]; rw [hmem x])]
    · exact ih seen1 seen2 hmem

theorem dedupOfficialsAux_cons_seen (xs : List Official) :
    ∀ (seen : List (List Char)) (n : List Char),
      dedupOfficialsAux (n :: seen) xs =
        dedupOfficialsAux seen
          (xs.filter (fun x => !(decide (x.name = n)))) := by
  induction xs with
  | nil => intro _ _; rfl
  | cons r rest ih =>
    intro seen n
    by_cases hrn : r.name = n
    · subst hrn
      simp [dedupOfficialsAux, List.filter_cons, List.contains_cons]
      exact ih seen r.name
    · have hc : (n :: seen).contains r.name = seen.contains r.name := by
        simp [List.contains_cons, hrn]
      have hkeep : (!decide (r.name = n)) = true := by simp [hrn]
      simp only [dedupOfficialsAux, List.filter_cons, hc, hkeep, if_pos rfl,
        if_true]
      split_ifs with h
      · rw [dedupOfficialsAux_congr rest (r.name :: n :: seen)
            (n :: r.name :: seen)
            (fun x => by
              simp only [List.contains_cons]
              rw [Bool.or_left_comm]),
          ih (r.name :: seen) n]
      · exact ih seen n

theorem dedup_eq_keepFirst_aux :
    ∀ (fuel : Nat) (xs : List Official), xs.length ≤ fuel →
      (∀ r ∈ xs, r.name ≠ []) →
      dedupOfficialsAux [] xs = keepFirstByNameAux fuel xs := by
  intro fuel
  induction fuel with
  | zero =>
    intro xs hlen _
    rw [List.length_eq_zero.1 (Nat.le_zero.1 hlen)]
    rfl
  | succ fuel ih =>
    intro xs hlen hn
    cases xs with
    | nil => rfl
    | cons r rest =>
      have hname : r.name ≠ [] := hn r (by simp)
      have hguard :
          (!r.name.isEmpty &&
            !(([] : List (List Char)).contains r.name)) = true := by
        simp [List.isEmpty_iff, hname]
      rw [dedupOfficialsAux, hguard, if_pos rfl, keepFirstByNameAux,
        dedupOfficialsAux_cons_seen rest [] r.name]
      rw [ih _ (le_trans (List.length_filter_le _ _) (by simpa using hlen))
        (fun x hx => by
          rw [List.mem_filter] at hx
          exact hn x (by simp [hx.1]))]

theorem dedupOfficialsAux_sound (xs : List Official) :
    ∀ seen : List (List Char),
      ((dedupOfficialsAux seen xs).map (·.name)).Nodup ∧
      (∀ r ∈ dedupOfficialsAux seen xs,
        r.name ≠ [] ∧ seen.contains r.name = false) := by
  induction xs with
  | nil => intro seen; exact ⟨List.nodup_nil, by simp [dedupOfficialsAux]⟩
  | cons r rest ih =>
    intro seen
    rw [dedupOfficialsAux]
    split_ifs with h
    · rw [Bool.and_eq_true, Bool.not_eq_true', Bool.not_eq_true'] at h
      obtain ⟨hne, hns⟩ := h
      obtain ⟨ihnodup, ihmem⟩ := ih (r.name :: seen)
      refine ⟨?_, ?_⟩
      · rw [List.map_cons, List.nodup_cons]
        refine ⟨?_, ihnodup⟩
        intro hmem
        rw [List.mem_map] at hmem
        obtain ⟨o, ho, hon⟩ := hmem
        have := (ihmem o ho).2
        rw [List.contains_cons] at this
        simp [hon] at this
      · intro o ho
        rcases List.mem_cons.1 ho with rfl | ho'
        · refine ⟨by simpa [List.isEmpty_iff] using hne, hns⟩
        · have h2 := ihmem o ho'
          refine ⟨h2.1, ?_⟩
          have := h2.2
          rw [List.contains_cons] at this
          simp only [Bool.or_eq_false_iff] at this
          exact this.2
    · exact ih seen

theorem contains_eq_false_iff {a : List Char} {l : List (List Char)} :
    l.contains a = false ↔ a ∉ l := by
  simp

theorem dedupOfficialsAux_fixed (xs : List Official) :
    ∀ seen : List (List Char),
      (∀ r ∈ xs, r.name ≠ []) → (xs.map (·.name)).Nodup →
      (∀ r ∈ xs, seen.contains r.name = false) →
      dedupOfficialsAux seen xs = xs := by
  induction xs with
  | nil => intro _ _ _ _; rfl
  | cons r rest ih =>
    intro seen hne hnd hns
    have hguard : (!r.name.isEmpty && !seen.contains r.name) = true := by
      simp [List.isEmpty_iff, hne r (by simp),
        contains_eq_false_iff.1 (hns r (by simp))]
    rw [dedupOfficialsAux, hguard, if_pos rfl]
    rw [List.map_cons, List.nodup_cons] at hnd
    rw [ih (r.name :: seen) (fun x hx => hne x (by simp [hx]))
      hnd.2
      (fun x hx => by
        rw [List.contains_cons]
        have hxname : ¬ x.name = r.name := by
          intro heq
          exact hnd.1 (heq ▸ List.mem_map_of_mem (·.name) hx)
        simp [hxname, contains_eq_false_iff.1 (hns x (by simp [hx]))])]

/-- C10: for a list of records all bearing a (non-empty) name,
`_deduplicate_officials` keeps exactly the first record for each distinct
name, in input order; consequently no name appears twice in the output
and the operation is idempotent. -/
theorem C10_dedup_first_occurrence (xs : List Official)
    (h : ∀ r ∈ xs, r.name ≠ []) :
    dedupOfficials xs = keepFirstByName xs ∧
    ((dedupOfficials xs).map (·.name)).Nodup ∧
    dedupOfficials (dedupOfficials xs) = dedupOfficials xs := by
  refine ⟨dedup_eq_keepFirst_aux xs.length xs le_rfl h, ?_, ?_⟩
  · exact (dedupOfficialsAux_sound xs []).1
  · obtain ⟨hnodup, hmem⟩ := dedupOfficialsAux_sound xs ([] : List (List Char))
    exact dedupOfficialsAux_fixed _ ([] : List (List Char))
      (fun r hr => (hmem r hr).1) hnodup (fun r _ => by simp)

/-- C10 (witness): a concrete list with a repeated name. -/
theorem C10_witness :
    (∀ r ∈ [ ({ name := "田中太郎".data, extractionMethod := "table" } : Official),
             { name := "佐藤花子".data, extractionMethod := "list" },
             { name := "田中太郎".data, extractionMethod := "div" } ],
        r.name ≠ []) ∧
    dedupOfficials
        [ { name := "田中太郎".data, extractionMethod := "table" },
          { name := "佐藤花子".data, extractionMethod := "list" },
          { name := "田中太郎".data, extractionMethod := "div" } ] =
      keepFirstByName
        [ { name := "田中太郎".data, extractionMethod := "table" },
          { name := "佐藤花子".data, extractionMethod := "list" },
          { name := "田中太郎".data, extractionMethod := "div" } ] :=
  ⟨by decide,
    (C10_dedup_first_occurrence _ (by decide)).1⟩

/-! ## C5: idempotence of normalization on plain, suffix-free strings -/

theorem plain_ranges {c : Char} (h : plainChar c = true) :
    c = ' ' ∨ (0x61 ≤ c.toNat ∧ c.toNat ≤ 0x7a) ∨
    (0x30 ≤ c.toNat ∧ c.toNat ≤ 0x39) ∨
    (0x4e00 ≤ c.toNat ∧ c.toNat ≤ 0x9fff) ∨
    (0x3041 ≤ c.toNat ∧ c.toNat ≤ 0x3096) ∨
    (0x30a1 ≤ c.toNat ∧ c.toNat ≤ 0x30fa) := by
  rw [plainChar] at h
  simp only [kanjiChar, Bool.or_eq_true, Bool.and_eq_true,
    decide_eq_true_eq] at h
  tauto

theorem plain_lower {c : Char} (h : plainChar c = true) : pyLower c = c := by
  rcases plain_ranges h with rfl | hr | hr | hr | hr | hr
  · decide
  all_goals
    rw [pyLower,
      if_neg (by simp only [Bool.and_eq_true, decide_eq_true_eq]; omega),
      if_neg (by simp only [Bool.and_eq_true, decide_eq_true_eq]; omega)]

theorem plain_word_or_space {c : Char} (h : plainChar c = true) :
    (wordChar c || pySpace c) = true := by
  rcases plain_ranges h with rfl | hr | hr | hr | hr | hr
  · decide
  all_goals
    have hw : wordChar c = true := by
      simp only [wordChar, kanjiChar, Bool.or_eq_true, Bool.and_eq_true,
        decide_eq_true_eq]
      omega
    simp [hw]

theorem plain_nfkc {c : Char} (h : plainChar c = true) : nfkcChar c = [c] := by
  rcases plain_ranges h with rfl | hr | hr | hr | hr | hr
  · decide
  all_goals
    rw [nfkcChar, if_neg (by omega),
      if_neg (by simp only [Bool.and_eq_true, decide_eq_true_eq]; omega)]

theorem map_pyLower_id {s : List Char}
    (h : ∀ c ∈ s, plainChar c = true) : s.map pyLower = s := by
  induction s with
  | nil => rfl
  | cons a t ih =>
    rw [List.map_cons, plain_lower (h a (by simp)),
      ih (fun c hc => h c (by simp [hc]))]

theorem filter_wordSpace_id {s : List Char}
    (h : ∀ c ∈ s, plainChar c = true) :
    s.filter (fun c => wordChar c || pySpace c) = s :=
  List.filter_eq_self.2 (fun c hc => plain_word_or_space (h c hc))

theorem flatMap_nfkc_id {s : List Char}
    (h : ∀ c ∈ s, plainChar c = true) : s.flatMap nfkcChar = s := by
  induction s with
  | nil => rfl
  | cons a t ih =>
    rw [List.flatMap_cons, plain_nfkc (h a (by simp)),
      ih (fun c hc => h c (by simp [hc]))]
    rfl

theorem subBoundaryAux_id (pat : List Char) :
    ∀ (fuel : Nat) (prev : Option Char) (s : List Char),
      infixOf pat s = false → subBoundaryAux pat fuel prev s = s := by
  intro fuel
  induction fuel with
  | zero => intro _ s _; rfl
  | succ fuel ih =>
    intro prev s hinf
    cases s with
    | nil => rfl
    | cons c rest =>
      rw [infixOf, Bool.or_eq_false_iff] at hinf
      obtain ⟨hst, hrest⟩ := hinf
      rw [subBoundaryAux, hst]
      simp only [Bool.and_false, Bool.false_and, Bool.false_eq_true, if_false]
      rw [ih prev rest hrest]

theorem subBoundary_id {pat s : List Char} (h : infixOf pat s = false) :
    subBoundary pat s = s :=
  subBoundaryAux_id pat s.length none s h

theorem foldl_subBoundary_id {s : List Char} (pats : List String)
    (h : ∀ pat ∈ pats, infixOf pat.data s = false) :
    pats.foldl (fun acc pat => subBoundary pat.data acc) s = s := by
  induction pats with
  | nil => rfl
  | cons p ps ih =>
    rw [List.foldl_cons, subBoundary_id (h p (by simp))]
    exact ih (fun q hq => h q (by simp [hq]))

theorem splitWsAux_append_word (w : List Char)
    (hw : ∀ c ∈ w, pySpace c = false) :
    ∀ (t acc : List Char), splitWsAux (w ++ t) acc = splitWsAux t (w.reverse ++ acc) := by
  induction w with
  | nil => intro t acc; simp
  | cons a w ih =>
    intro t acc
    have ha : pySpace a = false := hw a (by simp)
    rw [List.cons_append, splitWsAux, if_neg (by simp [ha])]
    rw [ih (fun c hc => hw c (by simp [hc])) t (a :: acc)]
    congr 1
    simp

theorem splitWsAux_mem (s : List Char) :
    ∀ acc : List Char, (∀ c ∈ acc, pySpace c = false) →
      ∀ w ∈ splitWsAux s acc, w ≠ [] ∧ ∀ c ∈ w, pySpace c = false := by
  induction s with
  | nil =>
    intro acc hacc w hw
    rw [splitWsAux] at hw
    split_ifs at hw with hae
    · simp at hw
    · rw [List.mem_singleton] at hw
      subst hw
      refine ⟨by simpa [List.isEmpty_iff] using hae, ?_⟩
      intro c hc
      exact hacc c (List.mem_reverse.1 hc)
  | cons c rest ih =>
    intro acc hacc w hw
    rw [splitWsAux] at hw
    split_ifs at hw with hc hae
    · exact ih [] (by simp) w hw
    · rcases List.mem_cons.1 hw with rfl | hw'
      · refine ⟨by simpa [List.isEmpty_iff] using hae, ?_⟩
        intro d hd
        exact hacc d (List.mem_reverse.1 hd)
      · exact ih [] (by simp) w hw'
    · refine ih (c :: acc) ?_ w hw
      intro d hd
      rcases List.mem_cons.1 hd with rfl | hd'
      · simpa using hc
      · exact hacc d hd'

theorem splitWsAux_word_in_source (s : List Char) :
    ∀ acc : List Char, ∀ w ∈ splitWsAux s acc, w <:+: (acc.reverse ++ s) := by
  induction s with
  | nil =>
    intro acc w hw
    rw [splitWsAux] at hw
    split_ifs at hw with hae
    · simp at hw
    · rw [List.mem_singleton] at hw
      subst hw
      simp
  | cons c rest ih =>
    intro acc w hw
    rw [splitWsAux] at hw
    split_ifs at hw with hc hae
    · have h1 := ih [] w hw
      simp only [List.reverse_nil, List.nil_append] at h1
      refine h1.trans ?_
      exact List.IsSuffix.isInfix ((List.suffix_cons c rest).trans (List.suffix_append _ _))
    · rcases List.mem_cons.1 hw with rfl | hw'
      · exact List.IsPrefix.isInfix (List.prefix_append _ _)
      · have h1 := ih [] w hw'
        simp only [List.reverse_nil, List.nil_append] at h1
        refine h1.trans ?_
        exact List.IsSuffix.isInfix ((List.suffix_cons c rest).trans (List.suffix_append _ _))
    · have h1 := ih (c :: acc) w hw
      simpa [List.append_assoc] using h1

theorem splitWs_joinWs (ws : List (List Char))
    (h : ∀ w ∈ ws, w ≠ [] ∧ ∀ c ∈ w, pySpace c = false) :
    splitWs (joinWs ws) = ws := by
  induction ws with
  | nil => rfl
  | cons w ws ih =>
    obtain ⟨hne, hsp⟩ := h w (by simp)
    cases ws with
    | nil =>
      rw [joinWs, splitWs]
      rw [show splitWsAux w [] = splitWsAux [] (w.reverse ++ []) by
        conv_lhs => rw [← List.append_nil w]
        exact splitWsAux_append_word w hsp [] []]
      rw [splitWsAux, if_neg (by simpa [List.isEmpty_iff] using hne)]
      simp
    | cons w2 ws2 =>
      rw [joinWs, splitWs,
        splitWsAux_append_word w hsp (' ' :: joinWs (w2 :: ws2)) [],
        splitWsAux, if_pos (by decide),
        if_neg (by simpa [List.isEmpty_iff] using hne)]
      rw [show splitWsAux (joinWs (w2 :: ws2)) [] = splitWs (joinWs (w2 :: ws2))
        from rfl]
      rw [ih (fun x hx => h x (by simp [hx]))]
      simp

theorem dropWhile_eq_self_of_head {p : Char → Bool} {s : List Char}
    (h : ∀ c : Char, s.head? = some c → p c = false) :
    s.dropWhile p = s := by
  cases s with
  | nil => rfl
  | cons a t =>
    rw [List.dropWhile_cons_of_neg]
    simp [h a rfl]

theorem joinWs_ne_nil {ws : List (List Char)} (hws : ws ≠ [])
    (h : ∀ w ∈ ws, w ≠ []) : joinWs ws ≠ [] := by
  cases ws with
  | nil => exact absurd rfl hws
  | cons w ws =>
    cases ws with
    | nil => simpa [joinWs] using h w (by simp)
    | cons w2 ws2 =>
      rw [joinWs]
      have := h w (by simp)
      cases w with
      | nil => exact absurd rfl this
      | cons a t => simp

theorem joinWs_getLast (ws : List (List Char)) (hws : ws ≠ [])
    (h : ∀ w ∈ ws, w ≠ [] ∧ ∀ c ∈ w, pySpace c = false) :
    ∃ b, (joinWs ws).getLast? = some b ∧ pySpace b = false := by
  induction ws with
  | nil => exact absurd rfl hws
  | cons w ws ih =>
    obtain ⟨hne, hsp⟩ := h w (by simp)
    cases ws with
    | nil =>
      refine ⟨w.getLast hne, ?_, hsp _ (List.getLast_mem hne)⟩
      rw [joinWs, List.getLast?_eq_getLast w hne]
    | cons w2 ws2 =>
      have hjne : joinWs (w2 :: ws2) ≠ [] :=
        joinWs_ne_nil (by simp) (fun x hx => (h x (by simp [hx])).1)
      obtain ⟨b, hb, hbs⟩ := ih (by simp) (fun x hx => h x (by simp [hx]))
      refine ⟨b, ?_, hbs⟩
      rw [joinWs, List.getLast?_append,
        show (' ' :: joinWs (w2 :: ws2)) = [' '] ++ joinWs (w2 :: ws2) from rfl,
        List.getLast?_append, hb]
      rfl

theorem pyStrip_joinWs (ws : List (List Char))
    (h : ∀ w ∈ ws, w ≠ [] ∧ ∀ c ∈ w, pySpace c = false) :
    pyStrip (joinWs ws) = joinWs ws := by
  cases ws with
  | nil => rfl
  | cons w ws =>
    obtain ⟨hne, hsp⟩ := h w (by simp)
    obtain ⟨a, w', rfl⟩ : ∃ a w', w = a :: w' := by
      cases w with
      | nil => exact absurd rfl hne
      | cons a w' => exact ⟨a, w', rfl⟩
    have hhd : (joinWs ((a :: w') :: ws)).head? = some a := by
      cases ws <;> simp [joinWs]
    have h1 : (joinWs ((a :: w') :: ws)).dropWhile pySpace =
        joinWs ((a :: w') :: ws) :=
      dropWhile_eq_self_of_head (fun c hc => by
        rw [hhd] at hc
        cases hc
        exact hsp a (by simp))
    obtain ⟨b, hb, hbs⟩ := joinWs_getLast ((a :: w') :: ws) (by simp) h
    have h2 : (joinWs ((a :: w') :: ws)).reverse.dropWhile pySpace =
        (joinWs ((a :: w') :: ws)).reverse :=
      dropWhile_eq_self_of_head (fun c hc => by
        rw [List.head?_reverse, hb] at hc
        cases hc
        exact hbs)
    rw [pyStrip, h1, h2, List.reverse_reverse]

theorem mem_joinWs {c : Char} :
    ∀ {ws : List (List Char)}, c ∈ joinWs ws →
      c = ' ' ∨ ∃ w ∈ ws, c ∈ w := by
  intro ws
  induction ws with
  | nil => intro h; simp [joinWs] at h
  | cons w ws ih =>
    cases ws with
    | nil =>
      intro h
      exact Or.inr ⟨w, by simp, by simpa [joinWs] using h⟩
    | cons w2 ws2 =>
      intro h
      rw [joinWs, List.mem_append] at h
      rcases h with h | h
      · exact Or.inr ⟨w, by simp, h⟩
      · rcases List.mem_cons.1 h with rfl | h2
        · exact Or.inl rfl
        · rcases ih h2 with h3 | ⟨w', hw', hc⟩
          · exact Or.inl h3
          · exact Or.inr ⟨w', by simp [hw'], hc⟩

theorem prefix_split {α : Type} {p l r : List α} {d : α}
    (h : p <+: l ++ d :: r) (hd : d ∉ p) : p <+: l := by
  induction p generalizing l with
  | nil => simp
  | cons a p ih =>
    cases l with
    | nil =>
      rw [List.nil_append, List.cons_prefix_cons] at h
      obtain ⟨rfl, -⟩ := h
      exact absurd (List.mem_cons_self _ _) hd
    | cons b l' =>
      rw [List.cons_append, List.cons_prefix_cons] at h
      obtain ⟨rfl, h2⟩ := h
      rw [List.cons_prefix_cons]
      exact ⟨rfl, ih h2 (fun hm => hd (by simp [hm]))⟩

theorem infix_split {α : Type} {p r : List α} {d : α} :
    ∀ {l : List α}, p <:+: l ++ d :: r → d ∉ p → p <:+: l ∨ p <:+: r := by
  intro l
  induction l with
  | nil =>
    intro h hd
    rw [List.nil_append] at h
    rcases List.infix_cons_iff.1 h with hpre | hinf
    · cases p with
      | nil => exact Or.inl List.nil_infix
      | cons a p' =>
        rw [List.cons_prefix_cons] at hpre
        obtain ⟨rfl, -⟩ := hpre
        exact absurd (List.mem_cons_self _ _) hd
    · exact Or.inr hinf
  | cons b l' ih =>
    intro h hd
    rw [List.cons_append] at h
    rcases List.infix_cons_iff.1 h with hpre | hinf
    · cases p with
      | nil => exact Or.inl List.nil_infix
      | cons a p' =>
        rw [List.cons_prefix_cons] at hpre
        obtain ⟨rfl, h2⟩ := hpre
        have h3 := prefix_split h2 (fun hm => hd (by simp [hm]))
        exact Or.inl (List.IsPrefix.isInfix (List.cons_prefix_cons.2 ⟨rfl, h3⟩))
    · rcases ih hinf hd with h1 | h1
      · exact Or.inl (h1.trans (List.infix_cons (List.infix_refl _)))
      · exact Or.inr h1

theorem infix_joinWs {pat : List Char} (hne : pat ≠ [])
    (hsp : ∀ c ∈ pat, pySpace c = false) :
    ∀ ws : List (List Char), pat <:+: joinWs ws → ∃ w ∈ ws, pat <:+: w := by
  intro ws
  induction ws with
  | nil =>
    intro h
    rw [joinWs, List.infix_nil] at h
    exact absurd h hne
  | cons w ws ih =>
    cases ws with
    | nil =>
      intro h
      exact ⟨w, by simp, by simpa [joinWs] using h⟩
    | cons w2 ws2 =>
      intro h
      rw [joinWs] at h
      have hdni : (' ' : Char) ∉ pat :=
        fun hm => absurd (hsp ' ' hm) (by decide)
      rcases infix_split h hdni with h1 | h1
      · exact ⟨w, by simp, h1⟩
      · obtain ⟨w', hw', hp⟩ := ih h1
        exact ⟨w', by simp [hw'], hp⟩

theorem suffixesToRemove_shape :
    ∀ pat ∈ suffixesToRemove,
      pat.data ≠ [] ∧ ∀ c ∈ pat.data, pySpace c = false := by
  decide

theorem normalize_plain (s : List Char)
    (hplain : ∀ c ∈ s, plainChar c = true)
    (hsuf : ∀ pat ∈ suffixesToRemove, infixOf pat.data s = false) :
    normalizeName s = joinWs (splitWs s) := by
  by_cases hse : s.isEmpty
  · rw [List.isEmpty_iff] at hse
    subst hse
    rfl
  · simp only [normalizeName, hse, Bool.false_eq_true, if_false]
    rw [map_pyLower_id hplain,
      foldl_subBoundary_id suffixesToRemove hsuf,
      filter_wordSpace_id hplain,
      flatMap_nfkc_id hplain,
      pyStrip_joinWs (splitWs s) (splitWsAux_mem s [] (by simp))]

/-- C5 (amended): `normalize_name` is idempotent on inputs made of plain
characters (spaces, ASCII lowercase letters and digits, CJK ideographs,
kana letters) that contain no suffix-vocabulary term as a substring.  In
general idempotence fails, because the punctuation removal of the first
pass can expose a new suffix occurrence (see the counterexample). -/
theorem C5_amended_idempotent_on_plain (s : List Char)
    (hplain : ∀ c ∈ s, plainChar c = true)
    (hsuf : ∀ pat ∈ suffixesToRemove, infixOf pat.data s = false) :
    normalizeName (normalizeName s) = normalizeName s := by
  have h1 := normalize_plain s hplain hsuf
  have hwf : ∀ w ∈ splitWs s, w ≠ [] ∧ ∀ c ∈ w, pySpace c = false :=
    splitWsAux_mem s [] (by simp)
  have hplain' : ∀ c ∈ joinWs (splitWs s), plainChar c = true := by
    intro c hc
    rcases mem_joinWs hc with rfl | ⟨w, hw, hcw⟩
    · decide
    · have hwin : w <:+: s := by
        simpa using splitWsAux_word_in_source s [] w hw
      exact hplain c (hwin.subset hcw)
  have hsuf' : ∀ pat ∈ suffixesToRemove,
      infixOf pat.data (joinWs (splitWs s)) = false := by
    intro pat hpat
    by_contra hF
    rw [Bool.not_eq_false] at hF
    obtain ⟨hpne, hpsp⟩ := suffixesToRemove_shape pat hpat
    obtain ⟨w, hw, hp⟩ :=
      infix_joinWs hpne hpsp (splitWs s) ((infixOf_iff _ _).1 hF)
    have hwin : w <:+: s := by
      simpa using splitWsAux_word_in_source s [] w hw
    have : infixOf pat.data s = true := (infixOf_iff _ _).2 (hp.trans hwin)
    rw [hsuf pat hpat] at this
    cases this
  rw [h1, normalize_plain _ hplain' hsuf', splitWs_joinWs (splitWs s) hwf]

set_option maxRecDepth 4000 in
/-- C5 (witness): idempotence at the plain, suffix-free name
`"田中 太郎"`. -/
theorem C5_witness :
    (∀ c ∈ "田中 太郎".data, plainChar c = true) ∧
    (∀ pat ∈ suffixesToRemove, infixOf pat.data "田中 太郎".data = false) ∧
    normalizeName (normalizeName "田中 太郎".data) =
      normalizeName "田中 太郎".data :=
  ⟨by decide, by decide,
    C5_amended_idempotent_on_plain "田中 太郎".data (by decide) (by decide)⟩
